import Mathlib

/-!
Verification of the open-hashing `HashMap` container from `HashMap.hpp`.

The C++ class template `HashMap<KeyT, ValueT>` is shallowly embedded as a
Lean structure holding the fields `_size`, `_capacity` and `_arr`
(the bucket array, a `List` of buckets, each bucket a `List` of key/value
pairs; the C++ buckets are vectors of owned pointers, whose contents we
model by value).  The `std::hash<KeyT>` instance is passed around explicitly
as a function `h : K → Nat`; the bucket index is `h key &&& (capacity - 1)`,
exactly as in the source.

Floating point note: the source compares `(double)_size / _capacity` against
the constants `0.75` and `0.25`.  `capacity` is always a power of two, so the
division is exact in IEEE double arithmetic (for the sizes an `int` can
hold), and the comparisons `size/cap > 3/4` and `size/cap < 1/4` are the
exact rational comparisons `4*size > 3*cap` and `4*size < cap`.  The
embedding uses the integer forms.

Exceptions (`VectorInputException`, `KeyNotFoundException`,
`OutOfRangeException`) are modelled with an error type and `Except`/`Option`
results.
-/

set_option maxHeartbeats 1000000
set_option linter.unusedSectionVars false

/-- List of the three HashMap exception classes declared in `HashMap.hpp`. -/
inductive HashMapError : Type where
  | VectorInput : HashMapError
  | KeyNotFound : HashMapError
  | OutOfRange : HashMapError
deriving DecidableEq

/-- Replace the element at index `i` of a list by `f` applied to it
(identity when `i` is out of range).  Used to model in-place mutation of
one bucket of the C++ bucket array. -/
def modifyAt {α : Type} (i : Nat) (f : α → α) : List α → List α
  | [] => []
  | x :: xs =>
    match i with
    | 0 => f x :: xs
    | i + 1 => x :: modifyAt i f xs

/-- The capacity loop of the vector constructor
(`while (_capacity <= _size || getLoadFactor() > MAX_LOAD_FACTOR) _capacity *= 2;`).
The `0 < cap` guard only encodes termination; the source always calls this
with `cap = 16 > 0`, where the guard is vacuous. -/
def growCapacity (n : Nat) (cap : Nat) : Nat :=
  if h : 0 < cap ∧ (cap ≤ n ∨ 3 * cap < 4 * n) then growCapacity n (cap * 2)
  else cap
termination_by 4 * n + 1 - cap
decreasing_by omega

/-- Shallow embedding of the C++ class `HashMap<KeyT, ValueT>`:
`_size`, `_capacity`, the bucket array `_arr`, and the `_defaultValue`
member returned by the const `operator[]` on a missing key. -/
structure HashMap (K V : Type) where
  size : Nat
  capacity : Nat
  arr : List (List (K × V))
  defaultValue : V
deriving DecidableEq

namespace HashMap

variable {K V : Type}

/-- `_hash`: `std::hash<KeyT>{}(key) & (_capacity - 1)`. -/
def hashIdx (h : K → Nat) (cap : Nat) (key : K) : Nat :=
  h key &&& (cap - 1)

/-- The default constructor `HashMap()`: size 0, capacity `DEFAULT_CAPACITY = 16`,
all buckets empty (`_defaultValue` default-constructed). -/
def emptyHashMap [Inhabited V] : HashMap K V :=
  { size := 0, capacity := 16, arr := List.replicate 16 [], defaultValue := default }

/-- The free helper `_getValue`: linear scan of one bucket, returning the
first value whose key matches (`none` models the `nullptr` result). -/
def getValue [DecidableEq K] (key : K) : List (K × V) → Option V
  | [] => none
  | p :: rest => if p.1 = key then some p.2 else getValue key rest

/-- Swap-with-back-then-pop removal of index `i`, as performed by
`_deleteValue`: if the hit is not the last element, it is overwritten by the
last element, and the last slot is popped. -/
def swapRemove (row : List (K × V)) (i : Nat) : List (K × V) :=
  match row.getLast? with
  | none => row
  | some last =>
    if i + 1 = row.length then row.dropLast
    else row.dropLast.set i last

/-- Index of the first entry of a bucket whose key matches — the loop
position at which `_deleteValue` takes its hit. -/
def findKeyIdx [DecidableEq K] (key : K) : List (K × V) → Option Nat
  | [] => none
  | p :: rest => if p.1 = key then some 0 else (findKeyIdx key rest).map (· + 1)

/-- The free helper `_deleteValue`: find the first entry with the given key,
remove it by swap-with-back-then-pop, and report whether a hit occurred. -/
def deleteValue [DecidableEq K] (key : K) (row : List (K × V)) : Bool × List (K × V) :=
  match findKeyIdx key row with
  | none => (false, row)
  | some i => (true, swapRemove row i)

/-- `_rehashArray`: allocate `newCapacity` empty buckets and re-append every
entry, bucket by bucket in index order and in intra-bucket order, at its new
hash index. -/
def rehashArray [DecidableEq K] (h : K → Nat) (newCapacity : Nat) (m : HashMap K V) :
    HashMap K V :=
  { m with
    capacity := newCapacity,
    arr := m.arr.flatten.foldl
      (fun acc p => modifyAt (hashIdx h newCapacity p.1) (fun r => r ++ [p]) acc)
      (List.replicate newCapacity []) }

/-- `HashMap::insert`: fail if the key is already in its bucket, otherwise
append the new pair, bump `_size`, and double the capacity when the load
factor exceeds `MAX_LOAD_FACTOR` (exact integer form `4*size > 3*cap`). -/
def insert [DecidableEq K] (h : K → Nat) (key : K) (value : V) (m : HashMap K V) :
    Bool × HashMap K V :=
  let idx := hashIdx h m.capacity key
  let row := m.arr.getD idx []
  if (getValue key row).isSome then (false, m)
  else
    let m1 : HashMap K V :=
      { m with arr := modifyAt idx (fun r => r ++ [(key, value)]) m.arr, size := m.size + 1 }
    if 4 * m1.size > 3 * m1.capacity then (true, rehashArray h (m1.capacity * 2) m1)
    else (true, m1)

/-- `HashMap::containsKey`. -/
def containsKey [DecidableEq K] (h : K → Nat) (m : HashMap K V) (key : K) : Bool :=
  (getValue key (m.arr.getD (hashIdx h m.capacity key) [])).isSome

/-- The lookup performed by `at`/`operator[]`/`containsKey`: `_getValue` on
the key's bucket. -/
def lookupOpt [DecidableEq K] (h : K → Nat) (m : HashMap K V) (key : K) : Option V :=
  getValue key (m.arr.getD (hashIdx h m.capacity key) [])

/-- `HashMap::at` (const and non-const agree on the value): the value when
present, otherwise the thrown `KeyNotFoundException`. -/
def atE [DecidableEq K] (h : K → Nat) (m : HashMap K V) (key : K) :
    Except HashMapError V :=
  match lookupOpt h m key with
  | some v => Except.ok v
  | none => Except.error HashMapError.KeyNotFound

/-- `HashMap::erase`: `_deleteValue` on the key's bucket; on a hit decrement
`_size` and halve the capacity when the load factor drops below
`MIN_LOAD_FACTOR` (exact integer form `4*size < cap`) while above
`MIN_CAPACITY = 1`. -/
def erase [DecidableEq K] (h : K → Nat) (key : K) (m : HashMap K V) :
    Bool × HashMap K V :=
  let idx := hashIdx h m.capacity key
  let res := deleteValue key (m.arr.getD idx [])
  if res.1 then
    let m1 : HashMap K V :=
      { m with arr := modifyAt idx (fun _ => res.2) m.arr, size := m.size - 1 }
    if 4 * m1.size < m1.capacity ∧ 1 < m1.capacity then
      (true, rehashArray h (m1.capacity / 2) m1)
    else (true, m1)
  else (false, m)

/-- The const `operator[]`: the stored value when present, otherwise the
`_defaultValue` member.  The method is `const` in the source, so it is a pure
function of the map: it cannot mutate size, capacity or contents. -/
def getOrDefault [DecidableEq K] (h : K → Nat) (m : HashMap K V) (key : K) : V :=
  match lookupOpt h m key with
  | some v => v
  | none => m.defaultValue

/-- The non-const `operator[]`: auto-inserts a default-constructed value for
a missing key (with grow check) and returns the value it now maps to. -/
def getOrInsertDefault [DecidableEq K] [Inhabited V] (h : K → Nat) (m : HashMap K V)
    (key : K) : V × HashMap K V :=
  match lookupOpt h m key with
  | some v => (v, m)
  | none =>
    let idx := hashIdx h m.capacity key
    let m1 : HashMap K V :=
      { m with arr := modifyAt idx (fun r => r ++ [(key, (default : V))]) m.arr,
               size := m.size + 1 }
    if 4 * m1.size > 3 * m1.capacity then ((default : V), rehashArray h (m1.capacity * 2) m1)
    else ((default : V), m1)

/-- One loop iteration of the vector constructor: `_deleteValue` the key from
its bucket (decrementing `_size` on a duplicate), then push the new pair. -/
def bulkStep [DecidableEq K] (h : K → Nat) (m : HashMap K V) (p : K × V) : HashMap K V :=
  let idx := hashIdx h m.capacity p.1
  let res := deleteValue p.1 (m.arr.getD idx [])
  let m1 : HashMap K V :=
    if res.1 then { m with arr := modifyAt idx (fun _ => res.2) m.arr, size := m.size - 1 }
    else m
  { m1 with arr := modifyAt (hashIdx h m1.capacity p.1) (fun r => r ++ [p]) m1.arr }

/-- The pre-loop state of the vector constructor: `_size` starts at the raw
pair count, the capacity comes from the doubling loop run from
`DEFAULT_CAPACITY = 16`, and all buckets are freshly allocated empty. -/
def bulkInit [Inhabited V] (n : Nat) : HashMap K V :=
  { size := n, capacity := growCapacity n 16,
    arr := List.replicate (growCapacity n 16) [], defaultValue := default }

theorem bulkStep_eq [DecidableEq K] (h : K → Nat) (m : HashMap K V) (p : K × V) :
    bulkStep h m p =
      if (deleteValue p.1 (m.arr.getD (hashIdx h m.capacity p.1) [])).1 then
        { m with
          arr := modifyAt (hashIdx h m.capacity p.1) (fun r => r ++ [p])
            (modifyAt (hashIdx h m.capacity p.1)
              (fun _ => (deleteValue p.1 (m.arr.getD (hashIdx h m.capacity p.1) [])).2)
              m.arr),
          size := m.size - 1 }
      else { m with arr := modifyAt (hashIdx h m.capacity p.1) (fun r => r ++ [p]) m.arr } := by
  simp only [bulkStep]
  by_cases hc : (deleteValue p.1 (m.arr.getD (hashIdx h m.capacity p.1) [])).1 = true
  · rw [if_pos hc, if_pos hc]
  · rw [if_neg hc, if_neg hc]

theorem bulkStep_size_le [DecidableEq K] (h : K → Nat) (m : HashMap K V) (p : K × V) :
    (bulkStep h m p).size ≤ m.size := by
  rw [bulkStep_eq]
  by_cases hc : (deleteValue p.1 (m.arr.getD (hashIdx h m.capacity p.1) [])).1 = true
  · rw [if_pos hc]
    show m.size - 1 ≤ m.size
    omega
  · rw [if_neg hc]

/-- The insertion loop of the vector constructor:
`for (int i = 0; i < _size; i++) { ... }`.  The bound `_size` is re-read on
every iteration and is decremented by the body when the current key is a
duplicate, so the loop can exit before all input pairs are consumed.  The
`none` arm models the out-of-range read `keys[i]`, which cannot occur since
the loop maintains `i < _size ≤` input length. -/
def bulkLoop [DecidableEq K] (h : K → Nat) (ps : List (K × V)) (i : Nat)
    (m : HashMap K V) : HashMap K V :=
  if _hlt : i < m.size then
    match ps[i]? with
    | some p => bulkLoop h ps (i + 1) (bulkStep h m p)
    | none => m
  else m
termination_by m.size - i
decreasing_by
  have := bulkStep_size_le h m p
  omega

/-- The body of the vector constructor after the length check: run the
insertion loop from index 0 on the zipped input, starting from `bulkInit`. -/
def bulkBuild [DecidableEq K] [Inhabited V] (h : K → Nat) (keys : List K)
    (values : List V) : HashMap K V :=
  bulkLoop h (keys.zip values) 0 (bulkInit keys.length)

/-- A fuel-indexed copy of the constructor loop, structurally recursive so it
evaluates by reduction; it agrees with `bulkLoop` whenever the fuel covers
the remaining trip count (`bulkLoop_eq_fuel`). -/
def bulkLoopFuel [DecidableEq K] (h : K → Nat) (ps : List (K × V)) :
    Nat → Nat → HashMap K V → HashMap K V
  | 0, _, m => m
  | fuel + 1, i, m =>
    if i < m.size then
      match ps[i]? with
      | some p => bulkLoopFuel h ps fuel (i + 1) (bulkStep h m p)
      | none => m
    else m

theorem bulkLoop_eq_fuel [DecidableEq K] (h : K → Nat) (ps : List (K × V)) :
    ∀ (fuel i : Nat) (m : HashMap K V), m.size - i ≤ fuel →
      bulkLoop h ps i m = bulkLoopFuel h ps fuel i m := by
  intro fuel
  induction fuel with
  | zero =>
    intro i m hle
    rw [bulkLoop, dif_neg (by omega)]
    rfl
  | succ fuel ih =>
    intro i m hle
    have hR : bulkLoopFuel h ps (fuel + 1) i m =
        if i < m.size then
          (match ps[i]? with
           | some p => bulkLoopFuel h ps fuel (i + 1) (bulkStep h m p)
           | none => m)
        else m := rfl
    rw [bulkLoop, hR]
    by_cases hlt : i < m.size
    · rw [dif_pos hlt, if_pos hlt]
      cases hps : ps[i]? with
      | none => rfl
      | some p =>
        show bulkLoop h ps (i + 1) (bulkStep h m p) =
          bulkLoopFuel h ps fuel (i + 1) (bulkStep h m p)
        refine ih (i + 1) (bulkStep h m p) ?_
        have := bulkStep_size_le h m p
        omega
    · rw [dif_neg hlt, if_neg hlt]

theorem bulkStep_capacity [DecidableEq K] (h : K → Nat) (m : HashMap K V) (p : K × V) :
    (bulkStep h m p).capacity = m.capacity := by
  rw [bulkStep_eq]
  by_cases hc : (deleteValue p.1 (m.arr.getD (hashIdx h m.capacity p.1) [])).1 = true
  · rw [if_pos hc]
  · rw [if_neg hc]

theorem bulkLoopFuel_capacity [DecidableEq K] (h : K → Nat) (ps : List (K × V)) :
    ∀ (fuel i : Nat) (m : HashMap K V),
      (bulkLoopFuel h ps fuel i m).capacity = m.capacity := by
  intro fuel
  induction fuel with
  | zero => intro i m; rfl
  | succ fuel ih =>
    intro i m
    show (if i < m.size then
        (match ps[i]? with
         | some p => bulkLoopFuel h ps fuel (i + 1) (bulkStep h m p)
         | none => m)
      else m).capacity = m.capacity
    by_cases hlt : i < m.size
    · rw [if_pos hlt]
      cases hps : ps[i]? with
      | none => rfl
      | some p =>
        show (bulkLoopFuel h ps fuel (i + 1) (bulkStep h m p)).capacity = m.capacity
        rw [ih, bulkStep_capacity]
    · rw [if_neg hlt]

theorem bulkLoop_capacity [DecidableEq K] (h : K → Nat) (ps : List (K × V))
    (i : Nat) (m : HashMap K V) : (bulkLoop h ps i m).capacity = m.capacity := by
  rw [bulkLoop_eq_fuel h ps m.size i m (by omega)]
  exact bulkLoopFuel_capacity h ps m.size i m

/-- The capacity computed by the vector constructor is fixed before the
insertion loop and never changes during it. -/
theorem bulkBuild_capacity [DecidableEq K] [Inhabited V] (h : K → Nat) (keys : List K)
    (values : List V) :
    (bulkBuild h keys values).capacity = growCapacity keys.length 16 := by
  unfold bulkBuild
  rw [bulkLoop_capacity]
  rfl

/-- `HashMap(keys, values)`: throws `VectorInputException` when the lengths
differ, otherwise builds via `bulkBuild`. -/
def hashMapOfVectors [DecidableEq K] [Inhabited V] (h : K → Nat) (keys : List K)
    (values : List V) : Except HashMapError (HashMap K V) :=
  if keys.length = values.length then Except.ok (bulkBuild h keys values)
  else Except.error HashMapError.VectorInput

/-- `HashMap::operator==`: equal sizes, and every entry of `this` is found in
`other` with an equal value (the source guards `other[k]` by
`other.containsKey(k)`, so the pass condition is exactly
`lookupOpt other k = some v`). -/
def hashMapBeq [DecidableEq K] [DecidableEq V] (h : K → Nat) (m other : HashMap K V) :
    Bool :=
  if m.size ≠ other.size then false
  else m.arr.flatten.all fun p =>
    containsKey h other p.1 && decide (getOrDefault h other p.1 = p.2)

end HashMap

namespace HashMap

variable {K V : Type}

/-- The state of `HashMap::const_iterator`: bucket index `_i`, intra-bucket
offset `_j`, and the referenced `_capacity`/`_arr`. -/
structure ConstIterator (K V : Type) where
  i : Nat
  j : Nat
  capacity : Nat
  arr : List (List (K × V))
deriving DecidableEq

/-- The bucket-skipping loop shared by the iterator constructor and
`operator++`: the first index `≥ i` whose bucket is non-empty, or `cap`. -/
def skipEmptyFrom (arr : List (List (K × V))) (cap i : Nat) : Nat :=
  if _h : i < cap then
    if (arr.getD i []).isEmpty then skipEmptyFrom arr cap (i + 1) else i
  else i
termination_by cap - i
decreasing_by omega

/-- `begin()` / the iterator constructor with `begin = true`: start at bucket
0, offset 0, skipping empty buckets. -/
def beginIter (arr : List (List (K × V))) (cap : Nat) : ConstIterator K V :=
  { i := skipEmptyFrom arr cap 0, j := 0, capacity := cap, arr := arr }

/-- `end()` / the iterator constructor with `begin = false`: `_i = capacity`,
`_j = 0`. -/
def endIter (arr : List (List (K × V))) (cap : Nat) : ConstIterator K V :=
  { i := cap, j := 0, capacity := cap, arr := arr }

/-- `const_iterator::operator==`: same array, same `_i`, same `_j`
(capacity is not compared in the source). -/
def iterEqb [DecidableEq K] [DecidableEq V] (a b : ConstIterator K V) : Bool :=
  decide (a.arr = b.arr) && decide (a.i = b.i) && decide (a.j = b.j)

/-- `const_iterator::operator++`: advance `_j`; at the end of a bucket reset
`_j` and skip forward past empty buckets. -/
def incIter (it : ConstIterator K V) : ConstIterator K V :=
  if it.i < it.capacity then
    if it.j + 1 ≥ (it.arr.getD it.i []).length then
      { it with i := skipEmptyFrom it.arr it.capacity (it.i + 1), j := 0 }
    else { it with j := it.j + 1 }
  else it

/-- `const_iterator::operator->` / `operator*`: the pair `_arr[_i][_j]` when
`_i < _capacity`, otherwise the thrown `OutOfRangeException` (modelled as
`none`; an in-range `_i` with out-of-range `_j` is unreachable from
`begin()`). -/
def derefOpt (it : ConstIterator K V) : Option (K × V) :=
  if it.i < it.capacity then (it.arr.getD it.i []).get? it.j else none

/-- The loop `for (auto it = begin; it != end; ++it) out.push_back(*it);`,
with explicit fuel (the source loop terminates; the fuel is sized so that it
never runs out on a well-formed map). -/
def traverseAux [DecidableEq K] [DecidableEq V] :
    Nat → ConstIterator K V → List (K × V)
  | 0, _ => []
  | fuel + 1, it =>
    if iterEqb it (endIter it.arr it.capacity) then []
    else
      match derefOpt it with
      | some p => p :: traverseAux fuel (incIter it)
      | none => []

/-- A full traversal from `begin()` to `end()`. -/
def traverseFull [DecidableEq K] [DecidableEq V] (arr : List (List (K × V)))
    (cap : Nat) : List (K × V) :=
  traverseAux ((arr.map List.length).sum + cap + 1) (beginIter arr cap)

end HashMap

/-! ### Basic lemmas about the embedding's list primitives -/

namespace HashMap

variable {K V : Type}

theorem length_modifyAt {α : Type} (i : Nat) (f : α → α) (l : List α) :
    (modifyAt i f l).length = l.length := by
  induction l generalizing i with
  | nil => simp [modifyAt]
  | cons x xs ih =>
    cases i with
    | zero => simp [modifyAt]
    | succ i => simp [modifyAt, ih]

theorem modifyAt_eq_take_cons_drop {α : Type} (i : Nat) (f : α → α) (l : List α) (d : α)
    (hi : i < l.length) :
    modifyAt i f l = l.take i ++ f (l.getD i d) :: l.drop (i + 1) := by
  induction l generalizing i with
  | nil => simp at hi
  | cons x xs ih =>
    cases i with
    | zero => simp [modifyAt]
    | succ i =>
      simp only [List.length_cons, Nat.succ_lt_succ_iff] at hi
      simp [modifyAt, List.getD_cons_succ, List.take_succ_cons, List.drop_succ_cons, ih i hi]

theorem getD_modifyAt_self {α : Type} (i : Nat) (f : α → α) (l : List α) (d : α)
    (hi : i < l.length) :
    (modifyAt i f l).getD i d = f (l.getD i d) := by
  induction l generalizing i with
  | nil => simp at hi
  | cons x xs ih =>
    cases i with
    | zero => simp [modifyAt]
    | succ i =>
      simp only [List.length_cons, Nat.succ_lt_succ_iff] at hi
      simp only [modifyAt, List.getD_cons_succ]
      exact ih i hi

theorem getD_modifyAt_ne {α : Type} (i j : Nat) (f : α → α) (l : List α) (d : α)
    (hij : i ≠ j) :
    (modifyAt i f l).getD j d = l.getD j d := by
  induction l generalizing i j with
  | nil => simp [modifyAt]
  | cons x xs ih =>
    cases i with
    | zero =>
      cases j with
      | zero => exact absurd rfl hij
      | succ j => simp [modifyAt, List.getD_cons_succ]
    | succ i =>
      cases j with
      | zero => simp [modifyAt]
      | succ j =>
        simp only [modifyAt, List.getD_cons_succ]
        exact ih i j (by omega)

theorem drop_eq_getD_cons {α : Type} (l : List α) (i : Nat) (d : α) (hi : i < l.length) :
    l.drop i = l.getD i d :: l.drop (i + 1) := by
  rw [List.drop_eq_getElem_cons hi, List.getD_eq_getElem l d hi]

theorem flatten_decomp {α : Type} (l : List (List α)) (i : Nat) (hi : i < l.length) :
    l.flatten = (l.take i).flatten ++ l.getD i [] ++ (l.drop (i + 1)).flatten := by
  conv_lhs => rw [← List.take_append_drop i l]
  rw [drop_eq_getD_cons l i [] hi]
  simp [List.flatten_append, List.append_assoc]

theorem flatten_modifyAt_append_perm {α : Type} (i : Nat) (l : List (List α)) (p : α)
    (hi : i < l.length) :
    (modifyAt i (fun r => r ++ [p]) l).flatten.Perm (p :: l.flatten) := by
  rw [modifyAt_eq_take_cons_drop i _ l [] hi, flatten_decomp l i hi]
  simp only [List.flatten_append, List.flatten_cons]
  have e : (l.take i).flatten ++ ((l.getD i [] ++ [p]) ++ (l.drop (i + 1)).flatten)
      = ((l.take i).flatten ++ l.getD i []) ++ p :: (l.drop (i + 1)).flatten := by
    simp [List.append_assoc]
  rw [e]
  have e2 : p :: ((l.take i).flatten ++ l.getD i [] ++ (l.drop (i + 1)).flatten)
      = p :: (((l.take i).flatten ++ l.getD i []) ++ (l.drop (i + 1)).flatten) := by
    simp [List.append_assoc]
  rw [e2]
  exact List.perm_middle

theorem flatten_modifyAt_set_perm {α : Type} (i : Nat) (l : List (List α)) (r' : List α)
    (x : α) (hi : i < l.length) (hperm : (l.getD i []).Perm (x :: r')) :
    l.flatten.Perm (x :: (modifyAt i (fun _ => r') l).flatten) := by
  rw [modifyAt_eq_take_cons_drop i _ l [] hi, flatten_decomp l i hi]
  simp only [List.flatten_append, List.flatten_cons]
  refine List.Perm.trans ((hperm.append_left ((l.take i).flatten)).append_right
    ((l.drop (i + 1)).flatten)) ?_
  have e : (l.take i).flatten ++ (x :: r') ++ (l.drop (i + 1)).flatten
      = (l.take i).flatten ++ x :: (r' ++ (l.drop (i + 1)).flatten) := by
    simp [List.append_assoc]
  rw [e]
  exact List.perm_middle

theorem getD_replicate_nil {α : Type} (n i : Nat) :
    (List.replicate n ([] : List α)).getD i [] = [] := by
  induction n generalizing i with
  | zero => rfl
  | succ n ih =>
    cases i with
    | zero => simp [List.replicate]
    | succ i =>
      rw [List.replicate_succ, List.getD_cons_succ]
      exact ih i

theorem mem_getD_mem_flatten {α : Type} (l : List (List α)) (i : Nat) (p : α)
    (hp : p ∈ l.getD i []) : p ∈ l.flatten := by
  by_cases hi : i < l.length
  · rw [flatten_decomp l i hi]
    simp only [List.mem_append]
    exact Or.inl (Or.inr hp)
  · rw [List.getD_eq_default] at hp
    · exact absurd hp (List.not_mem_nil p)
    · omega

end HashMap

/-! ### Lemmas about `_getValue`, `_deleteValue` and swap-removal -/

namespace HashMap

variable {K V : Type} [DecidableEq K]

theorem getValue_eq_none_iff (key : K) (row : List (K × V)) :
    getValue key row = none ↔ ∀ p ∈ row, p.1 ≠ key := by
  induction row with
  | nil => simp [getValue]
  | cons p rest ih =>
    by_cases hp : p.1 = key
    · simp [getValue, hp]
    · simp [getValue, hp, ih]

theorem getValue_mem {key : K} {row : List (K × V)} {v : V}
    (hv : getValue key row = some v) : (key, v) ∈ row := by
  induction row with
  | nil => simp [getValue] at hv
  | cons p rest ih =>
    by_cases hp : p.1 = key
    · simp only [getValue, hp, if_pos] at hv
      cases hv
      have hpe : (key, p.2) = p := by rw [← hp]
      rw [hpe]
      exact List.mem_cons_self p rest
    · simp only [getValue, hp, if_neg, not_false_iff] at hv
      exact List.mem_cons_of_mem _ (ih hv)

theorem getValue_of_mem_nodup {key : K} {row : List (K × V)} {v : V}
    (hnd : (row.map Prod.fst).Nodup) (hv : (key, v) ∈ row) :
    getValue key row = some v := by
  induction row with
  | nil => simp at hv
  | cons p rest ih =>
    simp only [List.map_cons, List.nodup_cons] at hnd
    rcases List.mem_cons.mp hv with heq | hmem
    · subst heq
      simp [getValue]
    · by_cases hp : p.1 = key
      · exfalso
        apply hnd.1
        rw [hp]
        exact List.mem_map.mpr ⟨(key, v), hmem, rfl⟩
      · simp only [getValue, hp, if_neg, not_false_iff]
        exact ih hnd.2 hmem

theorem getValue_append (key : K) (r1 r2 : List (K × V)) :
    getValue key (r1 ++ r2) =
      match getValue key r1 with
      | some v => some v
      | none => getValue key r2 := by
  induction r1 with
  | nil => simp [getValue]
  | cons p rest ih =>
    by_cases hp : p.1 = key
    · simp [getValue, hp]
    · simp [getValue, hp, ih]

theorem findKeyIdx_eq_none_iff (key : K) (row : List (K × V)) :
    findKeyIdx key row = none ↔ ∀ p ∈ row, p.1 ≠ key := by
  induction row with
  | nil => simp [findKeyIdx]
  | cons p rest ih =>
    by_cases hp : p.1 = key
    · simp [findKeyIdx, hp]
    · simp [findKeyIdx, hp, ih]

theorem findKeyIdx_spec {key : K} {row : List (K × V)} {i : Nat}
    (hi : findKeyIdx key row = some i) :
    ∃ hlt : i < row.length, (row.get ⟨i, hlt⟩).1 = key ∧
      getValue key row = some (row.get ⟨i, hlt⟩).2 := by
  induction row generalizing i with
  | nil => simp [findKeyIdx] at hi
  | cons p rest ih =>
    by_cases hp : p.1 = key
    · simp only [findKeyIdx, hp, if_pos] at hi
      cases hi
      exact ⟨Nat.succ_pos _, hp, by simp [getValue, hp]⟩
    · simp only [findKeyIdx, hp, if_neg, not_false_iff, Option.map_eq_some'] at hi
      obtain ⟨i', hi', rfl⟩ := hi
      obtain ⟨hlt, hkey, hval⟩ := ih hi'
      refine ⟨Nat.succ_lt_succ hlt, ?_, ?_⟩
      · simpa using hkey
      · simpa [getValue, hp] using hval

omit [DecidableEq K] in
theorem swapRemove_cons_succ (x : K × V) (xs : List (K × V)) (i : Nat) (hne : xs ≠ []) :
    swapRemove (x :: xs) (i + 1) = x :: swapRemove xs i := by
  obtain ⟨y, ys, rfl⟩ := List.exists_cons_of_ne_nil hne
  simp only [swapRemove, List.getLast?_cons_cons, List.length_cons, List.dropLast_cons₂]
  cases hl : (y :: ys).getLast? with
  | none => simp [List.getLast?_eq_none_iff] at hl
  | some last =>
    by_cases hlen : i + 1 = ys.length + 1
    · simp [hlen]
    · have : ¬(i + 1 + 1 = ys.length + 1 + 1) := by omega
      simp [hlen, this, List.set_cons_succ]

omit [DecidableEq K] in
theorem swapRemove_perm_eraseIdx (row : List (K × V)) (i : Nat) (hi : i < row.length) :
    (swapRemove row i).Perm (row.eraseIdx i) := by
  induction row generalizing i with
  | nil => simp at hi
  | cons x xs ih =>
    cases i with
    | zero =>
      cases xs with
      | nil => simp [swapRemove, List.eraseIdx]
      | cons y ys =>
        have hne : (y :: ys) ≠ [] := List.cons_ne_nil y ys
        have hlast : (y :: ys).getLast? = some ((y :: ys).getLast hne) :=
          List.getLast?_eq_getLast _ hne
        simp only [swapRemove, List.getLast?_cons_cons, hlast, List.eraseIdx_cons_zero,
          List.dropLast_cons₂, List.length_cons, List.set_cons_zero]
        have hcond : ¬(0 + 1 = ys.length + 1 + 1) := by omega
        rw [if_neg hcond]
        have hsplit : (y :: ys).dropLast ++ [(y :: ys).getLast hne] = y :: ys :=
          List.dropLast_append_getLast hne
        have hperm := List.perm_append_singleton ((y :: ys).getLast hne) ((y :: ys).dropLast)
        rw [hsplit] at hperm
        exact hperm.symm
    | succ i =>
      have hne : xs ≠ [] := by
        intro hnil
        rw [hnil] at hi
        simp at hi
      rw [swapRemove_cons_succ x xs i hne, List.eraseIdx_cons_succ]
      exact (ih i (by simpa using hi)).cons x

end HashMap

/-! ### `_deleteValue` characterization and the map well-formedness invariant -/

namespace HashMap

variable {K V : Type} [DecidableEq K]

omit [DecidableEq K] in
theorem perm_get_cons_eraseIdx {α : Type} (l : List α) (i : Nat) (hi : i < l.length) :
    l.Perm (l.get ⟨i, hi⟩ :: l.eraseIdx i) := by
  rw [List.eraseIdx_eq_take_drop_succ, List.get_eq_getElem]
  conv_lhs => rw [← List.take_append_drop i l, List.drop_eq_getElem_cons hi]
  exact List.perm_middle

theorem deleteValue_of_getValue_none {key : K} {row : List (K × V)}
    (hg : getValue key row = none) :
    deleteValue key row = (false, row) := by
  have hn := (findKeyIdx_eq_none_iff key row).mpr ((getValue_eq_none_iff key row).mp hg)
  simp [deleteValue, hn]

theorem deleteValue_found {key : K} {row : List (K × V)} {v : V}
    (hg : getValue key row = some v) :
    (deleteValue key row).1 = true ∧ row.Perm ((key, v) :: (deleteValue key row).2) := by
  cases hidx : findKeyIdx key row with
  | none =>
    have hne := (findKeyIdx_eq_none_iff key row).mp hidx
    exact absurd rfl (hne (key, v) (getValue_mem hg))
  | some i =>
    obtain ⟨hlt, hkey, hval⟩ := findKeyIdx_spec hidx
    rw [hg] at hval
    have hv2 : (row.get ⟨i, hlt⟩).2 = v := by
      injection hval with hval
      exact hval.symm
    have hget : row.get ⟨i, hlt⟩ = (key, v) := by
      rw [← hkey, ← hv2]
    have h1 : (deleteValue key row).1 = true := by simp [deleteValue, hidx]
    have h2 : (deleteValue key row).2 = swapRemove row i := by simp [deleteValue, hidx]
    refine ⟨h1, ?_⟩
    rw [h2]
    refine (perm_get_cons_eraseIdx row i hlt).trans ?_
    rw [hget]
    exact ((swapRemove_perm_eraseIdx row i hlt).symm.cons (key, v))

/-- The entries of a map: the concatenation of all its buckets (each C++
`pair` appears exactly where it is stored). -/
def entries (m : HashMap K V) : List (K × V) := m.arr.flatten

/-- Well-formedness invariant of a reachable `HashMap`: the bucket array has
`_capacity` buckets, `_capacity` is a power of two, every entry sits in the
bucket its hash selects, keys are globally distinct, and `_size` counts the
entries. -/
structure WF (h : K → Nat) (m : HashMap K V) : Prop where
  len_eq : m.arr.length = m.capacity
  pow2 : ∃ k, m.capacity = 2 ^ k
  bucket_ok : ∀ i < m.arr.length, ∀ p ∈ m.arr.getD i [], hashIdx h m.capacity p.1 = i
  nodup : ((entries m).map Prod.fst).Nodup
  size_eq : m.size = (entries m).length

omit [DecidableEq K] in
theorem WF.cap_pos {h : K → Nat} {m : HashMap K V} (hwf : WF h m) : 0 < m.capacity := by
  obtain ⟨k, hk⟩ := hwf.pow2
  rw [hk]
  exact Nat.pos_pow_of_pos k (by omega)

omit [DecidableEq K] in
theorem hashIdx_lt {h : K → Nat} {cap : Nat} (key : K) (hc : 0 < cap) :
    hashIdx h cap key < cap := by
  have : h key &&& (cap - 1) ≤ cap - 1 := Nat.and_le_right
  unfold hashIdx
  omega

omit [DecidableEq K] in
theorem bucket_nodup {h : K → Nat} {m : HashMap K V} (hwf : WF h m) (i : Nat)
    (hi : i < m.arr.length) : ((m.arr.getD i []).map Prod.fst).Nodup := by
  have hnd := hwf.nodup
  unfold entries at hnd
  rw [flatten_decomp m.arr i hi] at hnd
  simp only [List.map_append] at hnd
  exact (hnd.of_append_left).of_append_right

theorem lookupOpt_eq_some_iff {h : K → Nat} {m : HashMap K V} (hwf : WF h m)
    (key : K) (v : V) :
    lookupOpt h m key = some v ↔ (key, v) ∈ entries m := by
  constructor
  · intro hl
    exact mem_getD_mem_flatten m.arr _ _ (getValue_mem hl)
  · intro hmem
    obtain ⟨row, hrow, hp⟩ := List.mem_flatten.mp hmem
    obtain ⟨i, hi, rfl⟩ := List.getElem_of_mem hrow
    have hgd : m.arr.getD i [] = m.arr[i] := List.getD_eq_getElem m.arr [] hi
    have hidx : hashIdx h m.capacity key = i := by
      have := hwf.bucket_ok i hi (key, v) (by rw [hgd]; exact hp)
      simpa using this
    unfold lookupOpt
    rw [hidx, hgd]
    have hbn := bucket_nodup hwf i hi
    rw [hgd] at hbn
    exact getValue_of_mem_nodup hbn hp

theorem lookupOpt_eq_none_iff {h : K → Nat} {m : HashMap K V} (hwf : WF h m)
    (key : K) :
    lookupOpt h m key = none ↔ ∀ v, (key, v) ∉ entries m := by
  constructor
  · intro hl v hmem
    rw [← lookupOpt_eq_some_iff hwf key v] at hmem
    rw [hl] at hmem
    cases hmem
  · intro hnone
    cases hl : lookupOpt h m key with
    | none => rfl
    | some v =>
      exact absurd ((lookupOpt_eq_some_iff hwf key v).mp hl) (hnone v)

/-- Two well-formed maps with permuted entry lists have equal lookups. -/
theorem lookupOpt_eq_of_perm {h : K → Nat} {m1 m2 : HashMap K V} (hwf1 : WF h m1)
    (hwf2 : WF h m2) (hperm : (entries m1).Perm (entries m2)) (key : K) :
    lookupOpt h m1 key = lookupOpt h m2 key := by
  cases hl : lookupOpt h m1 key with
  | none =>
    rw [lookupOpt_eq_none_iff hwf1 key] at hl
    symm
    rw [lookupOpt_eq_none_iff hwf2 key]
    intro v hv
    exact hl v (hperm.symm.subset hv)
  | some v =>
    rw [lookupOpt_eq_some_iff hwf1 key v] at hl
    exact ((lookupOpt_eq_some_iff hwf2 key v).mpr (hperm.subset hl)).symm

end HashMap

/-! ### `_rehashArray` redistributes the entries and re-establishes the invariant -/

namespace HashMap

variable {K V : Type} [DecidableEq K]

/-- The redistribution fold of `_rehashArray`, abstracted over the starting
accumulator for induction. -/
def pushEntries (h : K → Nat) (c : Nat) (ps : List (K × V))
    (acc : List (List (K × V))) : List (List (K × V)) :=
  ps.foldl (fun acc p => modifyAt (hashIdx h c p.1) (fun r => r ++ [p]) acc) acc

theorem rehashArray_arr_eq (h : K → Nat) (c : Nat) (m : HashMap K V) :
    (rehashArray h c m).arr = pushEntries h c (entries m) (List.replicate c []) := rfl

theorem length_pushEntries (h : K → Nat) (c : Nat) (ps : List (K × V))
    (acc : List (List (K × V))) :
    (pushEntries h c ps acc).length = acc.length := by
  induction ps generalizing acc with
  | nil => rfl
  | cons p ps ih =>
    unfold pushEntries
    simp only [List.foldl_cons]
    rw [show List.foldl _ _ ps = pushEntries h c ps (modifyAt (hashIdx h c p.1)
      (fun r => r ++ [p]) acc) from rfl]
    rw [ih, length_modifyAt]

theorem flatten_pushEntries_perm (h : K → Nat) (c : Nat) (ps : List (K × V))
    (acc : List (List (K × V))) (hlen : acc.length = c) (hc : 0 < c) :
    (pushEntries h c ps acc).flatten.Perm (acc.flatten ++ ps) := by
  induction ps generalizing acc with
  | nil =>
    simp [pushEntries]
  | cons p ps ih =>
    unfold pushEntries
    simp only [List.foldl_cons]
    rw [show List.foldl _ _ ps = pushEntries h c ps (modifyAt (hashIdx h c p.1)
      (fun r => r ++ [p]) acc) from rfl]
    have hlen' : (modifyAt (hashIdx h c p.1) (fun r => r ++ [p]) acc).length = c := by
      rw [length_modifyAt, hlen]
    refine (ih _ hlen').trans ?_
    have hidx : hashIdx h c p.1 < acc.length := by
      rw [hlen]
      exact hashIdx_lt p.1 hc
    have hmod := flatten_modifyAt_append_perm (hashIdx h c p.1) acc p hidx
    refine (hmod.append_right ps).trans ?_
    rw [List.cons_append]
    exact List.perm_middle.symm

end HashMap

namespace HashMap

variable {K V : Type} [DecidableEq K]

theorem bucket_ok_pushEntries (h : K → Nat) (c : Nat) (ps : List (K × V))
    (acc : List (List (K × V))) (hlen : acc.length = c)
    (hok : ∀ i < c, ∀ p ∈ acc.getD i [], hashIdx h c p.1 = i) :
    ∀ i < c, ∀ p ∈ (pushEntries h c ps acc).getD i [], hashIdx h c p.1 = i := by
  induction ps generalizing acc with
  | nil => exact hok
  | cons p ps ih =>
    unfold pushEntries
    simp only [List.foldl_cons]
    rw [show List.foldl _ _ ps = pushEntries h c ps (modifyAt (hashIdx h c p.1)
      (fun r => r ++ [p]) acc) from rfl]
    refine ih _ (by rw [length_modifyAt, hlen]) ?_
    intro i hi q hq
    by_cases hieq : hashIdx h c p.1 = i
    · subst hieq
      rw [getD_modifyAt_self _ _ _ _ (by rw [hlen]; exact hashIdx_lt p.1 (by omega))] at hq
      rcases List.mem_append.mp hq with hq | hq
      · exact hok _ hi q hq
      · rcases List.mem_singleton.mp hq with rfl
        rfl
    · rw [getD_modifyAt_ne _ _ _ _ _ hieq] at hq
      exact hok i hi q hq

omit [DecidableEq K] in
theorem flatten_replicate_nil {α : Type} (n : Nat) :
    (List.replicate n ([] : List α)).flatten = [] := by
  induction n with
  | zero => rfl
  | succ n ih => rw [List.replicate_succ, List.flatten_cons, List.nil_append, ih]

/-- Full specification of `_rehashArray` on a positive target capacity:
capacity and bucket count become `newCapacity`, the entries are a
permutation of the old ones, every entry lands in its hash bucket, and
`_size` is untouched. -/
theorem rehashArray_spec (h : K → Nat) (c : Nat) (m : HashMap K V) (hc : 0 < c) :
    (rehashArray h c m).capacity = c ∧
    (rehashArray h c m).arr.length = c ∧
    (entries (rehashArray h c m)).Perm (entries m) ∧
    (∀ i < c, ∀ p ∈ (rehashArray h c m).arr.getD i [], hashIdx h c p.1 = i) ∧
    (rehashArray h c m).size = m.size := by
  refine ⟨rfl, ?_, ?_, ?_, rfl⟩
  · rw [rehashArray_arr_eq, length_pushEntries, List.length_replicate]
  · have hp := flatten_pushEntries_perm h c (entries m) (List.replicate c [])
      (List.length_replicate c []) hc
    rw [flatten_replicate_nil, List.nil_append] at hp
    exact hp
  · intro i hi p hp
    refine bucket_ok_pushEntries h c (entries m) (List.replicate c [])
      (List.length_replicate c []) ?_ i hi p hp
    intro j hj q hq
    rw [getD_replicate_nil] at hq
    cases hq

/-- `_rehashArray` preserves the invariant when the new capacity is a power
of two. -/
theorem rehashArray_wf {h : K → Nat} {m : HashMap K V} (c : Nat)
    (hpow : ∃ k, c = 2 ^ k)
    (hnodup : ((entries m).map Prod.fst).Nodup)
    (hsize : m.size = (entries m).length) :
    WF h (rehashArray h c m) := by
  have hc : 0 < c := by
    obtain ⟨k, rfl⟩ := hpow
    exact Nat.pos_pow_of_pos k (by omega)
  obtain ⟨hcap, hlen, hperm, hok, hsz⟩ := rehashArray_spec h c m hc
  refine ⟨by rw [hcap, hlen], by rw [hcap]; exact hpow, ?_, ?_, ?_⟩
  · intro i hi p hp
    rw [hlen] at hi
    rw [hcap]
    exact hok i hi p hp
  · exact (hperm.map Prod.fst).nodup_iff.mpr hnodup
  · rw [hsz, hperm.length_eq, hsize]

end HashMap

/-! ### `insert` and `erase`: branch characterizations and invariant preservation -/

namespace HashMap

variable {K V : Type} [DecidableEq K]

/-- The intermediate map of `insert` after the raw push and `_size++`,
before the grow check. -/
def insertRaw (h : K → Nat) (key : K) (value : V) (m : HashMap K V) : HashMap K V :=
  { m with
    arr := modifyAt (hashIdx h m.capacity key) (fun r => r ++ [(key, value)]) m.arr,
    size := m.size + 1 }

/-- The intermediate map of `erase` after the bucket deletion and `_size--`,
before the shrink check. -/
def eraseRaw (h : K → Nat) (key : K) (m : HashMap K V) : HashMap K V :=
  { m with
    arr := modifyAt (hashIdx h m.capacity key)
      (fun _ => (deleteValue key (m.arr.getD (hashIdx h m.capacity key) [])).2) m.arr,
    size := m.size - 1 }

theorem insert_eq (h : K → Nat) (key : K) (value : V) (m : HashMap K V) :
    insert h key value m =
      if (lookupOpt h m key).isSome then (false, m)
      else if 4 * (m.size + 1) > 3 * m.capacity then
        (true, rehashArray h (m.capacity * 2) (insertRaw h key value m))
      else (true, insertRaw h key value m) := rfl

theorem erase_eq (h : K → Nat) (key : K) (m : HashMap K V) :
    erase h key m =
      if (deleteValue key (m.arr.getD (hashIdx h m.capacity key) [])).1 then
        if 4 * (m.size - 1) < m.capacity ∧ 1 < m.capacity then
          (true, rehashArray h (m.capacity / 2) (eraseRaw h key m))
        else (true, eraseRaw h key m)
      else (false, m) := rfl

theorem getOrInsertDefault_eq [Inhabited V] (h : K → Nat) (m : HashMap K V) (key : K) :
    getOrInsertDefault h m key =
      match lookupOpt h m key with
      | some v => (v, m)
      | none =>
        if 4 * (m.size + 1) > 3 * m.capacity then
          ((default : V), rehashArray h (m.capacity * 2) (insertRaw h key (default : V) m))
        else ((default : V), insertRaw h key (default : V) m) := rfl

/-- `insert` on a key already present returns `false` and leaves the map
literally unchanged. -/
theorem insert_present {h : K → Nat} {m : HashMap K V} {key : K} {w : V} (v : V)
    (hl : lookupOpt h m key = some w) :
    insert h key v m = (false, m) := by
  rw [insert_eq, hl]
  simp

/-- `erase` on an absent key returns `false` and leaves the map literally
unchanged. -/
theorem erase_absent {h : K → Nat} {m : HashMap K V} {key : K}
    (hl : lookupOpt h m key = none) :
    erase h key m = (false, m) := by
  have hd : deleteValue key (m.arr.getD (hashIdx h m.capacity key) []) =
      (false, m.arr.getD (hashIdx h m.capacity key) []) :=
    deleteValue_of_getValue_none hl
  rw [erase_eq, hd]
  simp

theorem insertRaw_entries_perm {h : K → Nat} {m : HashMap K V} (key : K) (value : V)
    (hlt : hashIdx h m.capacity key < m.arr.length) :
    (entries (insertRaw h key value m)).Perm ((key, value) :: entries m) :=
  flatten_modifyAt_append_perm _ m.arr (key, value) hlt

theorem insertRaw_wf {h : K → Nat} {m : HashMap K V} {key : K} (value : V)
    (hwf : WF h m) (hl : lookupOpt h m key = none) :
    WF h (insertRaw h key value m) := by
  have hcap := hwf.cap_pos
  have hlt : hashIdx h m.capacity key < m.arr.length := by
    rw [hwf.len_eq]
    exact hashIdx_lt key hcap
  have hperm := insertRaw_entries_perm key value hlt
  have hkey_notin : key ∉ (entries m).map Prod.fst := by
    intro hmem
    obtain ⟨p, hp, hp1⟩ := List.mem_map.mp hmem
    have : (key, p.2) ∈ entries m := by
      have : p = (key, p.2) := by rw [← hp1]
      rw [← this]
      exact hp
    exact (lookupOpt_eq_none_iff hwf key).mp hl p.2 this
  have harr : (insertRaw h key value m).arr =
      modifyAt (hashIdx h m.capacity key) (fun r => r ++ [(key, value)]) m.arr := rfl
  refine ⟨?_, ?_, ?_, ?_, ?_⟩
  · rw [harr, length_modifyAt]
    exact hwf.len_eq
  · exact hwf.pow2
  · intro i hi p hp
    show hashIdx h m.capacity p.1 = i
    rw [harr, length_modifyAt] at hi
    rw [harr] at hp
    by_cases hieq : hashIdx h m.capacity key = i
    · subst hieq
      rw [getD_modifyAt_self _ _ _ _ hlt] at hp
      rcases List.mem_append.mp hp with hp | hp
      · exact hwf.bucket_ok _ hi p hp
      · rcases List.mem_singleton.mp hp with rfl
        rfl
    · rw [getD_modifyAt_ne _ _ _ _ _ hieq] at hp
      exact hwf.bucket_ok i hi p hp
  · refine ((hperm.map Prod.fst).nodup_iff).mpr ?_
    simp only [List.map_cons]
    exact List.nodup_cons.mpr ⟨hkey_notin, hwf.nodup⟩
  · show m.size + 1 = (entries (insertRaw h key value m)).length
    rw [hperm.length_eq]
    simp [hwf.size_eq]

end HashMap

namespace HashMap

variable {K V : Type} [DecidableEq K]

/-- `insert` on an absent key: returns `true`, preserves the invariant, adds
exactly the new entry, bumps `_size` by one, and doubles the capacity
exactly when the grow check fires. -/
theorem insert_absent {h : K → Nat} {m : HashMap K V} {key : K} (value : V)
    (hwf : WF h m) (hl : lookupOpt h m key = none) :
    (insert h key value m).1 = true ∧
    WF h (insert h key value m).2 ∧
    (entries (insert h key value m).2).Perm ((key, value) :: entries m) ∧
    (insert h key value m).2.size = m.size + 1 ∧
    ((insert h key value m).2.capacity =
      if 4 * (m.size + 1) > 3 * m.capacity then 2 * m.capacity else m.capacity) := by
  have hcap := hwf.cap_pos
  have hlt : hashIdx h m.capacity key < m.arr.length := by
    rw [hwf.len_eq]
    exact hashIdx_lt key hcap
  have hperm := insertRaw_entries_perm key value hlt
  have hwf1 := insertRaw_wf value hwf hl
  rw [insert_eq, hl, if_neg (by simp : ¬ ((none : Option V).isSome = true))]
  by_cases hgrow : 4 * (m.size + 1) > 3 * m.capacity
  · rw [if_pos hgrow]
    obtain ⟨k, hk⟩ := hwf.pow2
    have hpow2 : ∃ j, m.capacity * 2 = 2 ^ j := ⟨k + 1, by rw [hk]; ring⟩
    have hwfr : WF h (rehashArray h (m.capacity * 2) (insertRaw h key value m)) :=
      rehashArray_wf (m.capacity * 2) hpow2 hwf1.nodup hwf1.size_eq
    obtain ⟨hcap', hlen', hperm', hok', hsz'⟩ :=
      rehashArray_spec h (m.capacity * 2) (insertRaw h key value m) (by omega)
    refine ⟨rfl, hwfr, ?_, ?_, ?_⟩
    · exact hperm'.trans hperm
    · rw [hsz']
      rfl
    · rw [if_pos hgrow, hcap']
      ring
  · rw [if_neg hgrow]
    refine ⟨rfl, hwf1, hperm, rfl, ?_⟩
    rw [if_neg hgrow]
    rfl

/-- `erase` on a present key: returns `true`, preserves the invariant,
removes exactly that entry, decrements `_size` by one, and halves the
capacity exactly when the shrink check fires. -/
theorem erase_present {h : K → Nat} {m : HashMap K V} {key : K} {v : V}
    (hwf : WF h m) (hl : lookupOpt h m key = some v) :
    (erase h key m).1 = true ∧
    WF h (erase h key m).2 ∧
    (entries m).Perm ((key, v) :: entries (erase h key m).2) ∧
    (erase h key m).2.size = m.size - 1 ∧
    1 ≤ m.size ∧
    ((erase h key m).2.capacity =
      if 4 * (m.size - 1) < m.capacity ∧ 1 < m.capacity then m.capacity / 2
      else m.capacity) := by
  have hcap := hwf.cap_pos
  have hlt : hashIdx h m.capacity key < m.arr.length := by
    rw [hwf.len_eq]
    exact hashIdx_lt key hcap
  have hl' : getValue key (m.arr.getD (hashIdx h m.capacity key) []) = some v := hl
  obtain ⟨hfound, hrowperm⟩ := deleteValue_found hl' 
  have hperm : (entries m).Perm ((key, v) :: entries (eraseRaw h key m)) :=
    flatten_modifyAt_set_perm _ m.arr _ (key, v) hlt hrowperm
  have hsize1 : 1 ≤ m.size := by
    rw [hwf.size_eq, hperm.length_eq]
    simp
  have harr : (eraseRaw h key m).arr =
      modifyAt (hashIdx h m.capacity key)
        (fun _ => (deleteValue key (m.arr.getD (hashIdx h m.capacity key) [])).2) m.arr := rfl
  have hnodup' : ((entries (eraseRaw h key m)).map Prod.fst).Nodup := by
    have := (hperm.map Prod.fst).nodup_iff.mp hwf.nodup
    simp only [List.map_cons] at this
    exact (List.nodup_cons.mp this).2
  have hsize' : (eraseRaw h key m).size = (entries (eraseRaw h key m)).length := by
    show m.size - 1 = _
    have := hperm.length_eq
    simp only [List.length_cons] at this
    rw [hwf.size_eq, this]
    omega
  have hwf1 : WF h (eraseRaw h key m) := by
    refine ⟨?_, hwf.pow2, ?_, hnodup', hsize'⟩
    · rw [harr, length_modifyAt]
      exact hwf.len_eq
    · intro i hi p hp
      show hashIdx h m.capacity p.1 = i
      rw [harr, length_modifyAt] at hi
      rw [harr] at hp
      by_cases hieq : hashIdx h m.capacity key = i
      · subst hieq
        rw [getD_modifyAt_self _ _ _ _ hlt] at hp
        have hp' : p ∈ m.arr.getD (hashIdx h m.capacity key) [] :=
          hrowperm.symm.subset (List.mem_cons_of_mem _ hp)
        exact hwf.bucket_ok _ hi p hp'
      · rw [getD_modifyAt_ne _ _ _ _ _ hieq] at hp
        exact hwf.bucket_ok i hi p hp
  rw [erase_eq, hfound, if_pos rfl]
  by_cases hshrink : 4 * (m.size - 1) < m.capacity ∧ 1 < m.capacity
  · rw [if_pos hshrink]
    obtain ⟨k, hk⟩ := hwf.pow2
    have hk1 : 1 ≤ k := by
      rcases Nat.eq_zero_or_pos k with rfl | hpos
      · rw [hk] at hshrink
        omega
      · exact hpos
    have hpow2 : ∃ j, m.capacity / 2 = 2 ^ j := by
      refine ⟨k - 1, ?_⟩
      rw [hk]
      rcases Nat.exists_eq_add_of_le hk1 with ⟨j, rfl⟩
      simp [Nat.pow_succ, Nat.pow_add]
    have hwfr : WF h (rehashArray h (m.capacity / 2) (eraseRaw h key m)) :=
      rehashArray_wf (m.capacity / 2) hpow2 hnodup' hsize'
    obtain ⟨hcap', hlen', hperm', hok', hsz'⟩ :=
      rehashArray_spec h (m.capacity / 2) (eraseRaw h key m) (by omega)
    refine ⟨rfl, hwfr, ?_, ?_, hsize1, ?_⟩
    · exact hperm.trans (List.Perm.cons _ hperm'.symm)
    · rw [hsz']
      rfl
    · rw [if_pos hshrink, hcap']
  · rw [if_neg hshrink]
    refine ⟨rfl, hwf1, hperm, rfl, hsize1, ?_⟩
    rw [if_neg hshrink]
    rfl

end HashMap

/-! ### How lookups evolve across `insert` and `erase` -/

namespace HashMap

variable {K V : Type} [DecidableEq K]

/-- If `entries m'` is `entries m` plus one extra entry for a different key,
lookups of the other key agree. -/
theorem lookup_ext_of_perm_cons {h : K → Nat} {m m' : HashMap K V} (hwf : WF h m)
    (hwf' : WF h m') (key : K) (value : V)
    (hperm : (entries m').Perm ((key, value) :: entries m))
    (key' : K) (hne : key' ≠ key) :
    lookupOpt h m' key' = lookupOpt h m key' := by
  cases hl' : lookupOpt h m key' with
  | some u =>
    have hmem : (key', u) ∈ entries m := (lookupOpt_eq_some_iff hwf _ _).mp hl'
    have hmem' : (key', u) ∈ entries m' :=
      hperm.symm.subset (List.mem_cons_of_mem _ hmem)
    exact (lookupOpt_eq_some_iff hwf' _ _).mpr hmem'
  | none =>
    rw [lookupOpt_eq_none_iff hwf']
    intro u hu
    rcases List.mem_cons.mp (hperm.subset hu) with heq | hmem
    · exact hne (congrArg Prod.fst heq)
    · exact (lookupOpt_eq_none_iff hwf key').mp hl' u hmem

theorem lookupOpt_insert_self {h : K → Nat} {m : HashMap K V} {key : K} (value : V)
    (hwf : WF h m) (hl : lookupOpt h m key = none) :
    lookupOpt h (insert h key value m).2 key = some value := by
  obtain ⟨_, hwf', hperm, _, _⟩ := insert_absent value hwf hl
  rw [lookupOpt_eq_some_iff hwf']
  exact hperm.symm.subset (List.mem_cons_self _ _)

theorem lookupOpt_insert_ne {h : K → Nat} {m : HashMap K V} {key key' : K} (value : V)
    (hwf : WF h m) (hne : key' ≠ key) :
    lookupOpt h (insert h key value m).2 key' = lookupOpt h m key' := by
  cases hl : lookupOpt h m key with
  | some w =>
    rw [insert_present value hl]
  | none =>
    obtain ⟨_, hwf', hperm, _, _⟩ := insert_absent value hwf hl
    exact lookup_ext_of_perm_cons hwf hwf' key value hperm key' hne

theorem lookupOpt_erase_self {h : K → Nat} {m : HashMap K V} (key : K)
    (hwf : WF h m) :
    lookupOpt h (erase h key m).2 key = none := by
  cases hl : lookupOpt h m key with
  | none =>
    rw [erase_absent hl]
    exact hl
  | some v =>
    obtain ⟨_, hwf', hperm, _, _, _⟩ := erase_present hwf hl
    rw [lookupOpt_eq_none_iff hwf']
    intro u hu
    have hnd := ((hperm.map Prod.fst).nodup_iff).mp hwf.nodup
    simp only [List.map_cons, List.nodup_cons] at hnd
    exact hnd.1 (List.mem_map.mpr ⟨(key, u), hu, rfl⟩)

theorem lookupOpt_erase_ne {h : K → Nat} {m : HashMap K V} {key key' : K}
    (hwf : WF h m) (hne : key' ≠ key) :
    lookupOpt h (erase h key m).2 key' = lookupOpt h m key' := by
  cases hl : lookupOpt h m key with
  | none =>
    rw [erase_absent hl]
  | some v =>
    obtain ⟨_, hwf', hperm, _, _, _⟩ := erase_present hwf hl
    exact (lookup_ext_of_perm_cons hwf' hwf key v hperm key' hne).symm

theorem insert_wf {h : K → Nat} {m : HashMap K V} (key : K) (value : V)
    (hwf : WF h m) : WF h (insert h key value m).2 := by
  cases hl : lookupOpt h m key with
  | some w =>
    rw [insert_present value hl]
    exact hwf
  | none => exact (insert_absent value hwf hl).2.1

theorem erase_wf {h : K → Nat} {m : HashMap K V} (key : K) (hwf : WF h m) :
    WF h (erase h key m).2 := by
  cases hl : lookupOpt h m key with
  | none =>
    rw [erase_absent hl]
    exact hwf
  | some v => exact (erase_present hwf hl).2.1

/-- A single mutating operation on the map: `insert(key, value)` or
`erase(key)`. -/
inductive Op (K V : Type) where
  | ins : K → V → Op K V
  | del : K → Op K V

/-- Whether an operation is `erase` of the given key. -/
def Op.erasesKey : Op K V → K → Prop
  | Op.del k, key => k = key
  | Op.ins _ _, _ => False

/-- Apply one operation (discarding the Boolean result, as a C++ caller that
ignores the return value would). -/
def applyOp (h : K → Nat) (m : HashMap K V) : Op K V → HashMap K V
  | Op.ins k v => (insert h k v m).2
  | Op.del k => (erase h k m).2

/-- Apply a sequence of operations in order. -/
def applyOps (h : K → Nat) (ops : List (Op K V)) (m : HashMap K V) : HashMap K V :=
  ops.foldl (applyOp h) m

theorem applyOp_wf {h : K → Nat} {m : HashMap K V} (o : Op K V) (hwf : WF h m) :
    WF h (applyOp h m o) := by
  cases o with
  | ins k v => exact insert_wf k v hwf
  | del k => exact erase_wf k hwf

theorem applyOps_wf {h : K → Nat} {m : HashMap K V} (ops : List (Op K V))
    (hwf : WF h m) : WF h (applyOps h ops m) := by
  induction ops generalizing m with
  | nil => exact hwf
  | cons o ops ih => exact ih (applyOp_wf o hwf)

theorem lookupOpt_applyOp_preserved {h : K → Nat} {m : HashMap K V} {key : K} {v : V}
    (hwf : WF h m) (hl : lookupOpt h m key = some v) (o : Op K V)
    (hno : ¬ o.erasesKey key) :
    lookupOpt h (applyOp h m o) key = some v := by
  cases o with
  | ins k w =>
    by_cases hk : k = key
    · subst hk
      rw [show applyOp h m (Op.ins k w) = (insert h k w m).2 from rfl,
        insert_present w hl]
      exact hl
    · rw [show applyOp h m (Op.ins k w) = (insert h k w m).2 from rfl,
        lookupOpt_insert_ne w hwf (fun hkey => hk hkey.symm)]
      exact hl
  | del k =>
    have hk : k ≠ key := hno
    rw [show applyOp h m (Op.del k) = (erase h k m).2 from rfl,
      lookupOpt_erase_ne hwf (fun hkey => hk hkey.symm)]
    exact hl

theorem lookupOpt_applyOps_preserved {h : K → Nat} {m : HashMap K V} {key : K} {v : V}
    (hwf : WF h m) (hl : lookupOpt h m key = some v) (ops : List (Op K V))
    (hno : ∀ o ∈ ops, ¬ o.erasesKey key) :
    lookupOpt h (applyOps h ops m) key = some v := by
  induction ops generalizing m with
  | nil => exact hl
  | cons o ops ih =>
    exact ih (applyOp_wf o hwf)
      (lookupOpt_applyOp_preserved hwf hl o (hno o (List.mem_cons_self o ops)))
      (fun o' ho' => hno o' (List.mem_cons_of_mem o ho'))

end HashMap

namespace HashMap

variable {K V : Type} [DecidableEq K]

theorem entries_emptyHashMap [Inhabited V] :
    entries (emptyHashMap : HashMap K V) = [] := by
  show (List.replicate 16 ([] : List (K × V))).flatten = []
  exact flatten_replicate_nil 16

theorem WF_emptyHashMap [Inhabited V] (h : K → Nat) :
    WF h (emptyHashMap : HashMap K V) := by
  refine ⟨by simp [emptyHashMap], ⟨4, rfl⟩, ?_, ?_, ?_⟩
  · intro i hi p hp
    rw [show (emptyHashMap : HashMap K V).arr = List.replicate 16 [] from rfl,
      getD_replicate_nil] at hp
    cases hp
  · rw [entries_emptyHashMap]
    exact List.nodup_nil
  · rw [entries_emptyHashMap]
    rfl

/-- Run a sequence of operations, counting successful inserts and successful
erases (the Boolean results of the C++ calls). -/
def runOps (h : K → Nat) : List (Op K V) → HashMap K V → HashMap K V × Nat × Nat
  | [], m => (m, 0, 0)
  | Op.ins k v :: ops, m =>
    let r := insert h k v m
    let rest := runOps h ops r.2
    (rest.1, (if r.1 then 1 else 0) + rest.2.1, rest.2.2)
  | Op.del k :: ops, m =>
    let r := erase h k m
    let rest := runOps h ops r.2
    (rest.1, rest.2.1, (if r.1 then 1 else 0) + rest.2.2)

theorem runOps_fst (h : K → Nat) (ops : List (Op K V)) (m : HashMap K V) :
    (runOps h ops m).1 = applyOps h ops m := by
  induction ops generalizing m with
  | nil => rfl
  | cons o ops ih =>
    cases o with
    | ins k v => exact ih (insert h k v m).2
    | del k => exact ih (erase h k m).2

/-- Size accounting: the final size plus the number of successful erases
equals the starting size plus the number of successful inserts. -/
theorem runOps_accounting {h : K → Nat} (ops : List (Op K V)) {m : HashMap K V}
    (hwf : WF h m) :
    (runOps h ops m).1.size + (runOps h ops m).2.2 =
      m.size + (runOps h ops m).2.1 := by
  induction ops generalizing m with
  | nil => simp [runOps]
  | cons o ops ih =>
    cases o with
    | ins k v =>
      have hstep : runOps h (Op.ins k v :: ops) m =
          ((runOps h ops (insert h k v m).2).1,
           (if (insert h k v m).1 then 1 else 0) + (runOps h ops (insert h k v m).2).2.1,
           (runOps h ops (insert h k v m).2).2.2) := rfl
      rw [hstep]
      cases hl : lookupOpt h m k with
      | some w =>
        have h1 : (insert h k v m).1 = false := by rw [insert_present v hl]
        have h2 : (insert h k v m).2 = m := by rw [insert_present v hl]
        rw [h1, h2]
        have hrec := ih hwf
        simp only [Bool.false_eq_true, if_false]
        omega
      | none =>
        obtain ⟨h1, hwf', _, hsz, _⟩ := insert_absent v hwf hl
        rw [h1]
        have hrec := ih hwf'
        rw [hsz] at hrec
        simp only [if_true]
        omega
    | del k =>
      have hstep : runOps h (Op.del k :: ops) m =
          ((runOps h ops (erase h k m).2).1,
           (runOps h ops (erase h k m).2).2.1,
           (if (erase h k m).1 then 1 else 0) + (runOps h ops (erase h k m).2).2.2) := rfl
      rw [hstep]
      cases hl : lookupOpt h m k with
      | none =>
        have h1 : (erase h k m).1 = false := by rw [erase_absent hl]
        have h2 : (erase h k m).2 = m := by rw [erase_absent hl]
        rw [h1, h2]
        have hrec := ih hwf
        simp only [Bool.false_eq_true, if_false]
        omega
      | some v =>
        obtain ⟨h1, hwf', _, hsz, hone, _⟩ := erase_present hwf hl
        rw [h1]
        have hrec := ih hwf'
        rw [hsz] at hrec
        simp only [if_true]
        omega

end HashMap

/-! ### Iterator: the bucket-skip loop and full traversal -/

namespace HashMap

variable {K V : Type}

theorem skipEmptyFrom_ge (arr : List (List (K × V))) (cap : Nat) :
    ∀ i, i ≤ skipEmptyFrom arr cap i := by
  refine skipEmptyFrom.induct arr cap (fun i => i ≤ skipEmptyFrom arr cap i) ?_ ?_ ?_
  · intro i hlt hemp ih
    rw [skipEmptyFrom, dif_pos hlt, if_pos hemp]
    omega
  · intro i hlt hemp
    rw [skipEmptyFrom, dif_pos hlt, if_neg hemp]
  · intro i hge
    rw [skipEmptyFrom, dif_neg hge]

theorem skipEmptyFrom_le (arr : List (List (K × V))) (cap : Nat) :
    ∀ i, i ≤ cap → skipEmptyFrom arr cap i ≤ cap := by
  refine skipEmptyFrom.induct arr cap (fun i => i ≤ cap → skipEmptyFrom arr cap i ≤ cap)
    ?_ ?_ ?_
  · intro i hlt hemp ih _
    rw [skipEmptyFrom, dif_pos hlt, if_pos hemp]
    exact ih (by omega)
  · intro i hlt hemp hile
    rw [skipEmptyFrom, dif_pos hlt, if_neg hemp]
    exact hile
  · intro i hge hile
    rw [skipEmptyFrom, dif_neg hge]
    exact hile

theorem skipEmptyFrom_nonempty (arr : List (List (K × V))) (cap : Nat) :
    ∀ i, skipEmptyFrom arr cap i < cap → arr.getD (skipEmptyFrom arr cap i) [] ≠ [] := by
  refine skipEmptyFrom.induct arr cap
    (fun i => skipEmptyFrom arr cap i < cap → arr.getD (skipEmptyFrom arr cap i) [] ≠ [])
    ?_ ?_ ?_
  · intro i hlt hemp ih hlt'
    rw [skipEmptyFrom, dif_pos hlt, if_pos hemp] at hlt' ⊢
    exact ih hlt'
  · intro i hlt hemp _
    rw [skipEmptyFrom, dif_pos hlt, if_neg hemp]
    intro hnil
    exact hemp (by rw [hnil]; rfl)
  · intro i hge hlt'
    rw [skipEmptyFrom, dif_neg hge] at hlt'
    exact absurd hlt' hge

theorem skipEmptyFrom_flatten (arr : List (List (K × V))) (cap : Nat)
    (hlen : arr.length = cap) :
    ∀ i, (arr.drop (skipEmptyFrom arr cap i)).flatten = (arr.drop i).flatten := by
  refine skipEmptyFrom.induct arr cap
    (fun i => (arr.drop (skipEmptyFrom arr cap i)).flatten = (arr.drop i).flatten) ?_ ?_ ?_
  · intro i hlt hemp ih
    rw [skipEmptyFrom, dif_pos hlt, if_pos hemp]
    rw [ih]
    have hilen : i < arr.length := by omega
    rw [drop_eq_getD_cons arr i [] hilen, List.flatten_cons, List.isEmpty_iff.mp hemp,
      List.nil_append]
  · intro i hlt hemp
    rw [skipEmptyFrom, dif_pos hlt, if_neg hemp]
  · intro i hge
    rw [skipEmptyFrom, dif_neg hge]

theorem skipEmptyFrom_eq_cap_of_all_empty (arr : List (List (K × V))) (cap : Nat)
    (hlen : arr.length = cap) (hempty : ∀ l ∈ arr, l = []) :
    ∀ i, i ≤ cap → skipEmptyFrom arr cap i = cap := by
  refine skipEmptyFrom.induct arr cap
    (fun i => i ≤ cap → skipEmptyFrom arr cap i = cap) ?_ ?_ ?_
  · intro i hlt hemp ih _
    rw [skipEmptyFrom, dif_pos hlt, if_pos hemp]
    exact ih (by omega)
  · intro i hlt hemp _
    exfalso
    apply hemp
    have hilen : i < arr.length := by omega
    have : arr.getD i [] = arr[i] := List.getD_eq_getElem arr [] hilen
    rw [this, hempty arr[i] (List.getElem_mem hilen)]
    rfl
  · intro i hge hile
    rw [skipEmptyFrom, dif_neg hge]
    omega

/-- Entry count from bucket `i` on. -/
def sumLenFrom (arr : List (List (K × V))) (i : Nat) : Nat :=
  ((arr.drop i).map List.length).sum

theorem sumLenFrom_succ (arr : List (List (K × V))) (i : Nat) (hi : i < arr.length) :
    sumLenFrom arr i = (arr.getD i []).length + sumLenFrom arr (i + 1) := by
  unfold sumLenFrom
  rw [drop_eq_getD_cons arr i [] hi, List.map_cons, List.sum_cons]

theorem sumLenFrom_le_succ (arr : List (List (K × V))) (i : Nat) :
    sumLenFrom arr (i + 1) ≤ sumLenFrom arr i := by
  by_cases hi : i < arr.length
  · rw [sumLenFrom_succ arr i hi]
    omega
  · unfold sumLenFrom
    rw [List.drop_eq_nil_of_le (by omega), List.drop_eq_nil_of_le (by omega)]

theorem sumLenFrom_anti (arr : List (List (K × V))) :
    ∀ i j, i ≤ j → sumLenFrom arr j ≤ sumLenFrom arr i := by
  intro i j hij
  induction j with
  | zero =>
    have : i = 0 := by omega
    rw [this]
  | succ j ih =>
    rcases Nat.lt_or_ge i (j + 1) with hlt | hge
    · exact (sumLenFrom_le_succ arr j).trans (ih (by omega))
    · have : i = j + 1 := by omega
      rw [this]

theorem getD_append_flatten (arr : List (List (K × V))) (i : Nat) :
    arr.getD i [] ++ (arr.drop (i + 1)).flatten = (arr.drop i).flatten := by
  by_cases hi : i < arr.length
  · rw [drop_eq_getD_cons arr i [] hi, List.flatten_cons]
  · rw [List.getD_eq_default _ _ (by omega), List.drop_eq_nil_of_le (by omega),
      List.drop_eq_nil_of_le (by omega), List.nil_append]

end HashMap

namespace HashMap

variable {K V : Type} [DecidableEq K] [DecidableEq V]

/-- Master lemma for the traversal loop: from a valid iterator position
(or the end sentinel), with enough fuel, the loop emits the rest of the
current bucket followed by all later buckets. -/
theorem traverseAux_spec (arr : List (List (K × V))) (cap : Nat)
    (hlen : arr.length = cap) :
    ∀ fuel i j,
      ((i = cap ∧ j = 0) ∨ (i < cap ∧ j < (arr.getD i []).length)) →
      sumLenFrom arr i - j + (cap - i) < fuel →
      traverseAux fuel (⟨i, j, cap, arr⟩ : ConstIterator K V) =
        (arr.getD i []).drop j ++ (arr.drop (i + 1)).flatten := by
  intro fuel
  induction fuel using Nat.strong_induction_on with
  | _ fuel ih =>
    intro i j hpos hfuel
    cases fuel with
    | zero => omega
    | succ fuel =>
    rcases hpos with ⟨rfl, rfl⟩ | ⟨hlt, hj⟩
    · rw [traverseAux, if_pos (by simp [iterEqb, endIter])]
      have h1 : arr.getD i [] = [] := List.getD_eq_default arr [] (by omega)
      have h2 : arr.drop (i + 1) = [] := List.drop_eq_nil_of_le (by omega)
      rw [h1, h2]
      simp
    · rw [traverseAux, if_neg (by simp [iterEqb, endIter]; omega)]
      have hderef : derefOpt (⟨i, j, cap, arr⟩ : ConstIterator K V) =
          some ((arr.getD i [])[j]) := by
        unfold derefOpt
        rw [if_pos hlt, List.get?_eq_getElem?, List.getElem?_eq_getElem hj]
      rw [hderef]
      have hsum_succ := sumLenFrom_succ arr i (by omega)
      by_cases hjump : j + 1 ≥ (arr.getD i []).length
      · have hinc : incIter (⟨i, j, cap, arr⟩ : ConstIterator K V) =
            ⟨skipEmptyFrom arr cap (i + 1), 0, cap, arr⟩ := by
          unfold incIter
          rw [if_pos hlt, if_pos hjump]
        rw [hinc]
        have hge' : i + 1 ≤ skipEmptyFrom arr cap (i + 1) :=
          skipEmptyFrom_ge arr cap (i + 1)
        have hle' : skipEmptyFrom arr cap (i + 1) ≤ cap :=
          skipEmptyFrom_le arr cap (i + 1) (by omega)
        have hpos' : (skipEmptyFrom arr cap (i + 1) = cap ∧ 0 = 0) ∨
            (skipEmptyFrom arr cap (i + 1) < cap ∧
              0 < (arr.getD (skipEmptyFrom arr cap (i + 1)) []).length) := by
          rcases Nat.lt_or_ge (skipEmptyFrom arr cap (i + 1)) cap with hlt' | hge''
          · exact Or.inr ⟨hlt', List.length_pos.mpr
              (skipEmptyFrom_nonempty arr cap (i + 1) hlt')⟩
          · exact Or.inl ⟨by omega, rfl⟩
        have hanti := sumLenFrom_anti arr (i + 1) (skipEmptyFrom arr cap (i + 1)) hge'
        have hfuel' : sumLenFrom arr (skipEmptyFrom arr cap (i + 1)) - 0 +
            (cap - skipEmptyFrom arr cap (i + 1)) < fuel := by omega
        rw [ih fuel (by omega) _ 0 hpos' hfuel']
        rw [List.drop_zero, getD_append_flatten arr (skipEmptyFrom arr cap (i + 1)),
          skipEmptyFrom_flatten arr cap hlen (i + 1)]
        have hdropj : (arr.getD i []).drop j = [(arr.getD i [])[j]] := by
          rw [List.drop_eq_getElem_cons hj, List.drop_eq_nil_of_le (by omega)]
        rw [hdropj]
        rfl
      · have hinc : incIter (⟨i, j, cap, arr⟩ : ConstIterator K V) =
            ⟨i, j + 1, cap, arr⟩ := by
          unfold incIter
          rw [if_pos hlt, if_neg hjump]
        rw [hinc]
        have hpos' : (i = cap ∧ j + 1 = 0) ∨
            (i < cap ∧ j + 1 < (arr.getD i []).length) := Or.inr ⟨hlt, by omega⟩
        have hfuel' : sumLenFrom arr i - (j + 1) + (cap - i) < fuel := by omega
        rw [ih fuel (by omega) i (j + 1) hpos' hfuel']
        rw [List.drop_eq_getElem_cons hj]
        rfl

/-- A full traversal of a bucket array of the right length yields exactly the
concatenation of the buckets. -/
theorem traverseFull_eq (arr : List (List (K × V))) (cap : Nat)
    (hlen : arr.length = cap) :
    traverseFull arr cap = arr.flatten := by
  unfold traverseFull beginIter
  have hge := skipEmptyFrom_ge arr cap 0
  have hle := skipEmptyFrom_le arr cap 0 (by omega)
  have hpos : (skipEmptyFrom arr cap 0 = cap ∧ 0 = 0) ∨
      (skipEmptyFrom arr cap 0 < cap ∧ 0 < (arr.getD (skipEmptyFrom arr cap 0) []).length) := by
    rcases Nat.lt_or_ge (skipEmptyFrom arr cap 0) cap with hlt' | hge''
    · exact Or.inr ⟨hlt', List.length_pos.mpr (skipEmptyFrom_nonempty arr cap 0 hlt')⟩
    · exact Or.inl ⟨by omega, rfl⟩
  have hanti := sumLenFrom_anti arr 0 (skipEmptyFrom arr cap 0) (by omega)
  have hsum0 : sumLenFrom arr 0 = (arr.map List.length).sum := by
    unfold sumLenFrom
    rw [List.drop_zero]
  have hfuel : sumLenFrom arr (skipEmptyFrom arr cap 0) - 0 +
      (cap - skipEmptyFrom arr cap 0) < (arr.map List.length).sum + cap + 1 := by omega
  rw [traverseAux_spec arr cap hlen _ _ 0 hpos hfuel]
  rw [List.drop_zero, getD_append_flatten arr (skipEmptyFrom arr cap 0),
    skipEmptyFrom_flatten arr cap hlen 0, List.drop_zero]

/-- An empty map's `begin()` equals its `end()`. -/
theorem beginIter_eq_endIter_of_empty (arr : List (List (K × V))) (cap : Nat)
    (hlen : arr.length = cap) (hempty : arr.flatten = []) :
    beginIter arr cap = (endIter arr cap : ConstIterator K V) := by
  unfold beginIter endIter
  rw [skipEmptyFrom_eq_cap_of_all_empty arr cap hlen
    (List.flatten_eq_nil_iff.mp hempty) 0 (by omega)]

end HashMap

/-! ### The constructor's capacity loop computes a least power of two -/

namespace HashMap

theorem growCapacity_isLeast_aux (n : Nat) :
    ∀ cap, (∃ j, cap = 2 ^ j) →
      IsLeast {c : Nat | (∃ k, c = 2 ^ k) ∧ cap ≤ c ∧ n < c ∧ 4 * n ≤ 3 * c}
        (growCapacity n cap) := by
  refine growCapacity.induct n (fun cap => (∃ j, cap = 2 ^ j) →
    IsLeast {c : Nat | (∃ k, c = 2 ^ k) ∧ cap ≤ c ∧ n < c ∧ 4 * n ≤ 3 * c}
      (growCapacity n cap)) ?_ ?_
  · intro cap hcond ih hpow
    obtain ⟨j, rfl⟩ := hpow
    have hpow' : ∃ j', (2 : Nat) ^ j * 2 = 2 ^ j' := ⟨j + 1, by ring⟩
    obtain ⟨hmem, hlb⟩ := ih hpow'
    rw [growCapacity, dif_pos hcond]
    constructor
    · obtain ⟨hk, hge, hn, hload⟩ := hmem
      exact ⟨hk, by omega, hn, hload⟩
    · intro c hc
      obtain ⟨⟨k, rfl⟩, hge, hn, hload⟩ := hc
      refine hlb ⟨⟨k, rfl⟩, ?_, hn, hload⟩
      have hjk : j ≤ k := (Nat.pow_le_pow_iff_right (by omega)).mp hge
      rcases Nat.lt_or_ge j k with hlt | hge2
      · calc (2 : Nat) ^ j * 2 = 2 ^ (j + 1) := by ring
          _ ≤ 2 ^ k := (Nat.pow_le_pow_iff_right (by omega)).mpr (by omega)
      · exfalso
        have : j = k := by omega
        subst this
        omega
  · intro cap hcond hpow
    rw [growCapacity, dif_neg hcond]
    have hpos : 0 < cap := by
      obtain ⟨j, rfl⟩ := hpow
      exact Nat.pos_pow_of_pos j (by omega)
    constructor
    · exact ⟨hpow, Nat.le_refl cap, by omega, by omega⟩
    · intro c hc
      exact hc.2.1

/-- The capacity the vector constructor chooses for `n` raw input pairs:
the least power of two that is at least the default capacity 16, strictly
exceeds `n`, and keeps the load factor at most 3/4. -/
theorem growCapacity_isLeast (n : Nat) :
    IsLeast {c : Nat | (∃ k, c = 2 ^ k) ∧ 16 ≤ c ∧ n < c ∧ 4 * n ≤ 3 * c}
      (growCapacity n 16) := by
  have := growCapacity_isLeast_aux n 16 ⟨4, rfl⟩
  exact this

theorem growCapacity_pow2 (n : Nat) : ∃ k, growCapacity n 16 = 2 ^ k :=
  (growCapacity_isLeast n).1.1

theorem growCapacity_ge_16 (n : Nat) : 16 ≤ growCapacity n 16 :=
  (growCapacity_isLeast n).1.2.1

end HashMap

/-! ### Rational load-factor comparisons (exact for the power-of-two capacities) -/

namespace HashMap

theorem rat_div_gt_iff (s c : Nat) (hc : 0 < c) :
    (s : ℚ) / c > 3 / 4 ↔ 4 * s > 3 * c := by
  rw [gt_iff_lt, div_lt_div_iff₀ (by norm_num) (by exact_mod_cast hc)]
  constructor
  · intro h1
    have h2 : ((3 * c : ℕ) : ℚ) < ((4 * s : ℕ) : ℚ) := by push_cast; linarith
    exact_mod_cast h2
  · intro h1
    have h2 : ((3 * c : ℕ) : ℚ) < ((4 * s : ℕ) : ℚ) := by exact_mod_cast h1
    push_cast at h2
    linarith

theorem rat_div_lt_iff (s c : Nat) (hc : 0 < c) :
    (s : ℚ) / c < 1 / 4 ↔ 4 * s < c := by
  rw [div_lt_div_iff₀ (by exact_mod_cast hc) (by norm_num)]
  constructor
  · intro h1
    have h2 : ((4 * s : ℕ) : ℚ) < ((c : ℕ) : ℚ) := by push_cast; linarith
    exact_mod_cast h2
  · intro h1
    have h2 : ((4 * s : ℕ) : ℚ) < ((c : ℕ) : ℚ) := by exact_mod_cast h1
    push_cast at h2
    linarith

theorem rat_div_le_iff (s c : Nat) (hc : 0 < c) :
    (s : ℚ) / c ≤ 3 / 4 ↔ 4 * s ≤ 3 * c := by
  rw [div_le_div_iff₀ (by exact_mod_cast hc) (by norm_num)]
  constructor
  · intro h1
    have h2 : ((4 * s : ℕ) : ℚ) ≤ ((3 * c : ℕ) : ℚ) := by push_cast; linarith
    exact_mod_cast h2
  · intro h1
    have h2 : ((4 * s : ℕ) : ℚ) ≤ ((3 * c : ℕ) : ℚ) := by exact_mod_cast h1
    push_cast at h2
    linarith

end HashMap

/-! ## The claims -/

section Claims

open HashMap

/-- C1 (counterexample): for the one-pair input (`n = 1`) the vector
constructor picks capacity 16, although 2 is a power of two that is strictly
greater than 1 and keeps the load factor `1/2 ≤ 0.75` — so the chosen
capacity is NOT the smallest power of two with those two properties, the
loop having started at `DEFAULT_CAPACITY = 16`. -/
theorem bulk_capacity_not_smallest_cex :
    (bulkBuild (fun k => k) [0] ([0] : List Nat)).capacity = 16 ∧
    (2 : Nat) = 2 ^ 1 ∧ 1 < 2 ∧ 4 * 1 ≤ 3 * 2 ∧ (2 : Nat) < 16 := by
  refine ⟨?_, rfl, by omega, by omega, by omega⟩
  rw [bulkBuild_capacity]
  show growCapacity 1 16 = 16
  rw [growCapacity, dif_neg (by omega)]

/-- C1 (amended): for every pair of equal-length key/value vectors with `n`
elements, the constructor sets the capacity once, before any insertion and
based on the raw input length `n`, to the smallest power of two that is AT
LEAST the default capacity 16, strictly greater than `n`, and keeps
`n / capacity ≤ 0.75`; the capacity never changes during the subsequent
insertions (`bulkBuild_capacity`: every loop iteration preserves it). -/
theorem bulk_capacity_formula {K V : Type} [DecidableEq K] [Inhabited V]
    (h : K → Nat) (keys : List K) (values : List V)
    (_hlen : keys.length = values.length) :
    (bulkBuild h keys values).capacity = growCapacity keys.length 16 ∧
    IsLeast {c : Nat | (∃ k, c = 2 ^ k) ∧ 16 ≤ c ∧ keys.length < c ∧
      4 * keys.length ≤ 3 * c} (bulkBuild h keys values).capacity := by
  refine ⟨bulkBuild_capacity h keys values, ?_⟩
  rw [bulkBuild_capacity]
  exact growCapacity_isLeast keys.length

theorem bulk_capacity_formula_witness :
    (bulkBuild (fun k => k) [0, 1] ([5, 6] : List Nat)).capacity =
      growCapacity 2 16 ∧
    IsLeast {c : Nat | (∃ k, c = 2 ^ k) ∧ 16 ≤ c ∧ 2 < c ∧ 4 * 2 ≤ 3 * c}
      (bulkBuild (fun k => k) [0, 1] ([5, 6] : List Nat)).capacity :=
  bulk_capacity_formula (fun k => k) [0, 1] [5, 6] rfl

/-- C2 (counterexample): inserting a single key into a freshly
default-constructed map (capacity 16) leaves the load factor at
`1/16 < 0.25` while the capacity is 16, not the minimum 1 — the claimed
lower bound `0.25 ≤ size/capacity` does not hold after that insert. -/
theorem load_factor_lower_bound_cex :
    (((insert (fun k => k) 0 0 (emptyHashMap : HashMap Nat Nat)).2.size : ℚ) /
      ((insert (fun k => k) 0 0 (emptyHashMap : HashMap Nat Nat)).2.capacity) < 1 / 4) ∧
    (insert (fun k => k) 0 0 (emptyHashMap : HashMap Nat Nat)).2.capacity ≠ 1 := by
  have hsz : (insert (fun k => k) 0 0 (emptyHashMap : HashMap Nat Nat)).2.size = 1 := by
    decide
  have hcap : (insert (fun k => k) 0 0 (emptyHashMap : HashMap Nat Nat)).2.capacity = 16 := by
    decide
  rw [hsz, hcap]
  norm_num

/-- C2 (amended): after any single `insert` or `erase` on a well-formed map
whose load factor is at most 0.75, the load factor is again at most 0.75
(post-resize-check); the claimed lower bound 0.25 need not hold (see the
counterexample). -/
theorem load_factor_upper_bound_preserved {K V : Type} [DecidableEq K]
    (h : K → Nat) (m : HashMap K V) (hwf : WF h m) (key : K) (value : V)
    (hload : (m.size : ℚ) / m.capacity ≤ 3 / 4) :
    ((insert h key value m).2.size : ℚ) / ((insert h key value m).2.capacity) ≤ 3 / 4 ∧
    ((erase h key m).2.size : ℚ) / ((erase h key m).2.capacity) ≤ 3 / 4 := by
  have hcap := hwf.cap_pos
  rw [rat_div_le_iff _ _ hcap] at hload
  obtain ⟨kk, hkk⟩ := hwf.pow2
  constructor
  · cases hl : lookupOpt h m key with
    | some w =>
      rw [insert_present value hl]
      rw [rat_div_le_iff _ _ hcap]
      exact hload
    | none =>
      obtain ⟨_, hwf', _, hsz, hcapacity⟩ := insert_absent value hwf hl
      rw [hsz, hcapacity]
      by_cases hgrow : 4 * (m.size + 1) > 3 * m.capacity
      · rw [if_pos hgrow, rat_div_le_iff _ _ (by omega)]
        rcases Nat.eq_or_lt_of_le hcap with hone | htwo
        · omega
        · omega
      · rw [if_neg hgrow, rat_div_le_iff _ _ hcap]
        omega
  · cases hl : lookupOpt h m key with
    | none =>
      rw [erase_absent hl]
      rw [rat_div_le_iff _ _ hcap]
      exact hload
    | some v =>
      obtain ⟨_, hwf', _, hsz, hone, hcapacity⟩ := erase_present hwf hl
      rw [hsz, hcapacity]
      by_cases hshrink : 4 * (m.size - 1) < m.capacity ∧ 1 < m.capacity
      · rw [if_pos hshrink, rat_div_le_iff _ _ (by omega)]
        have heven : m.capacity % 2 = 0 := by
          rcases Nat.eq_zero_or_pos kk with rfl | hkpos
          · rw [hkk] at hshrink
            omega
          · rcases Nat.exists_eq_add_of_le hkpos with ⟨j, hj⟩
            rw [hkk, hj, Nat.pow_add]
            simp [Nat.mul_mod_right]
        omega
      · rw [if_neg hshrink, rat_div_le_iff _ _ hcap]
        omega

theorem load_factor_upper_bound_preserved_witness :
    (((insert (fun k => k) 0 0 (emptyHashMap : HashMap Nat Nat)).2.size : ℚ) /
      ((insert (fun k => k) 0 0 (emptyHashMap : HashMap Nat Nat)).2.capacity) ≤ 3 / 4) ∧
    (((erase (fun k => k) 0 (emptyHashMap : HashMap Nat Nat)).2.size : ℚ) /
      ((erase (fun k => k) 0 (emptyHashMap : HashMap Nat Nat)).2.capacity) ≤ 3 / 4) :=
  load_factor_upper_bound_preserved (fun k => k) emptyHashMap
    (WF_emptyHashMap (fun k => k)) 0 0 (by norm_num [emptyHashMap])

end Claims

section Claims2

open HashMap

/-- C3: on any well-formed map (the empty map, and any map produced by the
constructors and by insert/erase sequences with their resizes, satisfy
`WF`), a full `const_iterator` traversal from `begin()` to `end()` produces
exactly the list of live entries — every live entry exactly once, no
duplicates, no omissions — hence exactly `size()` pairs; and on an empty map
`begin() = end()`. -/
theorem iterator_traversal_complete {K V : Type} [DecidableEq K] [DecidableEq V]
    (h : K → Nat) (m : HashMap K V) (hwf : WF h m) :
    traverseFull m.arr m.capacity = entries m ∧
    (traverseFull m.arr m.capacity).length = m.size ∧
    (m.size = 0 → beginIter m.arr m.capacity = endIter m.arr m.capacity) := by
  refine ⟨traverseFull_eq m.arr m.capacity hwf.len_eq, ?_, ?_⟩
  · rw [traverseFull_eq m.arr m.capacity hwf.len_eq]
    exact hwf.size_eq.symm
  · intro hsz
    apply beginIter_eq_endIter_of_empty _ _ hwf.len_eq
    have hlen := hwf.size_eq
    rw [hsz] at hlen
    exact List.length_eq_zero.mp hlen.symm

theorem iterator_traversal_complete_witness :
    traverseFull (emptyHashMap : HashMap Nat Nat).arr
        (emptyHashMap : HashMap Nat Nat).capacity =
      entries (emptyHashMap : HashMap Nat Nat) ∧
    (traverseFull (emptyHashMap : HashMap Nat Nat).arr
        (emptyHashMap : HashMap Nat Nat).capacity).length =
      (emptyHashMap : HashMap Nat Nat).size ∧
    ((emptyHashMap : HashMap Nat Nat).size = 0 →
      beginIter (emptyHashMap : HashMap Nat Nat).arr
          (emptyHashMap : HashMap Nat Nat).capacity =
        endIter (emptyHashMap : HashMap Nat Nat).arr
          (emptyHashMap : HashMap Nat Nat).capacity) :=
  iterator_traversal_complete (fun k => k) emptyHashMap
    (WF_emptyHashMap (fun k => k))

/-- C4: on a well-formed map, a successful insert makes `containsKey` true
and `at` return the inserted value; the binding survives any further
inserts and any erases of other keys; when a key is absent (`containsKey`
false, or just erased), `at` fails with `KeyNotFound`. -/
theorem insert_at_round_trip {K V : Type} [DecidableEq K] (h : K → Nat)
    (m : HashMap K V) (hwf : WF h m) (key : K) (value : V) :
    ((insert h key value m).1 = true →
      containsKey h (insert h key value m).2 key = true ∧
      atE h (insert h key value m).2 key = Except.ok value) ∧
    (∀ ops : List (Op K V), atE h m key = Except.ok value →
      (∀ o ∈ ops, ¬ o.erasesKey key) →
      containsKey h (applyOps h ops m) key = true ∧
      atE h (applyOps h ops m) key = Except.ok value) ∧
    (containsKey h m key = false →
      atE h m key = Except.error HashMapError.KeyNotFound) ∧
    atE h (erase h key m).2 key = Except.error HashMapError.KeyNotFound := by
  refine ⟨?_, ?_, ?_, ?_⟩
  · intro htrue
    cases hl : lookupOpt h m key with
    | some w =>
      rw [insert_present value hl] at htrue
      cases htrue
    | none =>
      have hlook := lookupOpt_insert_self value hwf hl
      constructor
      · show (lookupOpt h (insert h key value m).2 key).isSome = true
        rw [hlook]
        rfl
      · unfold atE
        rw [hlook]
  · intro ops hat hno
    have hl : lookupOpt h m key = some value := by
      unfold atE at hat
      cases hl : lookupOpt h m key with
      | none => rw [hl] at hat; cases hat
      | some w =>
        rw [hl] at hat
        injection hat with hat
        rw [hat]
    have hpres := lookupOpt_applyOps_preserved hwf hl ops hno
    constructor
    · show (lookupOpt h (applyOps h ops m) key).isSome = true
      rw [hpres]
      rfl
    · unfold atE
      rw [hpres]
  · intro habs
    have hl : lookupOpt h m key = none := by
      cases hl : lookupOpt h m key with
      | none => rfl
      | some w =>
        have hck : containsKey h m key = true := by
          show (lookupOpt h m key).isSome = true
          rw [hl]
          rfl
        rw [habs] at hck
        cases hck
    unfold atE
    rw [hl]
  · unfold atE
    rw [lookupOpt_erase_self key hwf]

theorem insert_at_round_trip_witness :
    ((insert (fun k => k) 0 7 (emptyHashMap : HashMap Nat Nat)).1 = true →
      containsKey (fun k => k) (insert (fun k => k) 0 7
        (emptyHashMap : HashMap Nat Nat)).2 0 = true ∧
      atE (fun k => k) (insert (fun k => k) 0 7
        (emptyHashMap : HashMap Nat Nat)).2 0 = Except.ok 7) ∧
    (∀ ops : List (Op Nat Nat),
      atE (fun k => k) (emptyHashMap : HashMap Nat Nat) 0 = Except.ok 7 →
      (∀ o ∈ ops, ¬ o.erasesKey 0) →
      containsKey (fun k => k) (applyOps (fun k => k) ops
        (emptyHashMap : HashMap Nat Nat)) 0 = true ∧
      atE (fun k => k) (applyOps (fun k => k) ops
        (emptyHashMap : HashMap Nat Nat)) 0 = Except.ok 7) ∧
    (containsKey (fun k => k) (emptyHashMap : HashMap Nat Nat) 0 = false →
      atE (fun k => k) (emptyHashMap : HashMap Nat Nat) 0 =
        Except.error HashMapError.KeyNotFound) ∧
    atE (fun k => k) (erase (fun k => k) 0 (emptyHashMap : HashMap Nat Nat)).2 0 =
      Except.error HashMapError.KeyNotFound :=
  insert_at_round_trip (fun k => k) emptyHashMap (WF_emptyHashMap (fun k => k)) 0 7

end Claims2

section Claims3

open HashMap

/-- C5: on a well-formed map, a single `insert` doubles the capacity exactly
when it succeeds and raises `size/capacity` strictly above 0.75, and a
single `erase` halves the capacity exactly when it succeeds and drops
`size/capacity` strictly below 0.25 while the capacity exceeds the minimum
1; in every other case the capacity is unchanged — so each mutating call
performs at most one resize. -/
theorem resize_step_characterization {K V : Type} [DecidableEq K] (h : K → Nat)
    (m : HashMap K V) (hwf : WF h m) (key : K) (value : V) :
    ((insert h key value m).2.capacity =
      if (insert h key value m).1 = true ∧
          ((m.size : ℚ) + 1) / m.capacity > 3 / 4
        then 2 * m.capacity else m.capacity) ∧
    ((erase h key m).2.capacity =
      if (erase h key m).1 = true ∧
          ((m.size : ℚ) - 1) / m.capacity < 1 / 4 ∧ 1 < m.capacity
        then m.capacity / 2 else m.capacity) := by
  have hcap := hwf.cap_pos
  have hqgrow : (((m.size : ℚ) + 1) / m.capacity > 3 / 4) ↔
      4 * (m.size + 1) > 3 * m.capacity := by
    have hcast : ((m.size : ℚ) + 1) = ((m.size + 1 : ℕ) : ℚ) := by push_cast; ring
    rw [hcast]
    exact rat_div_gt_iff (m.size + 1) m.capacity hcap
  constructor
  · cases hl : lookupOpt h m key with
    | some w =>
      rw [insert_present value hl]
      rw [if_neg]
      intro hcon
      cases hcon.1
    | none =>
      obtain ⟨h1, _, _, _, hcapacity⟩ := insert_absent value hwf hl
      rw [hcapacity, h1]
      by_cases hgrow : 4 * (m.size + 1) > 3 * m.capacity
      · rw [if_pos hgrow, if_pos ⟨rfl, hqgrow.mpr hgrow⟩]
      · rw [if_neg hgrow, if_neg]
        intro hcon
        exact hgrow (hqgrow.mp hcon.2)
  · cases hl : lookupOpt h m key with
    | none =>
      rw [erase_absent hl]
      rw [if_neg]
      intro hcon
      cases hcon.1
    | some v =>
      obtain ⟨h1, _, _, _, hone, hcapacity⟩ := erase_present hwf hl
      have hqshrink : (((m.size : ℚ) - 1) / m.capacity < 1 / 4) ↔
          4 * (m.size - 1) < m.capacity := by
        have hcast : ((m.size : ℚ) - 1) = ((m.size - 1 : ℕ) : ℚ) := by
          rw [Nat.cast_sub hone]
          norm_num
        rw [hcast]
        exact rat_div_lt_iff (m.size - 1) m.capacity hcap
      rw [hcapacity, h1]
      by_cases hshrink : 4 * (m.size - 1) < m.capacity ∧ 1 < m.capacity
      · rw [if_pos hshrink, if_pos ⟨rfl, hqshrink.mpr hshrink.1, hshrink.2⟩]
      · rw [if_neg hshrink, if_neg]
        intro hcon
        exact hshrink ⟨hqshrink.mp hcon.2.1, hcon.2.2⟩

theorem resize_step_characterization_witness :
    ((insert (fun k => k) 0 0 (emptyHashMap : HashMap Nat Nat)).2.capacity =
      if (insert (fun k => k) 0 0 (emptyHashMap : HashMap Nat Nat)).1 = true ∧
          (((emptyHashMap : HashMap Nat Nat).size : ℚ) + 1) /
            (emptyHashMap : HashMap Nat Nat).capacity > 3 / 4
        then 2 * (emptyHashMap : HashMap Nat Nat).capacity
        else (emptyHashMap : HashMap Nat Nat).capacity) ∧
    ((erase (fun k => k) 0 (emptyHashMap : HashMap Nat Nat)).2.capacity =
      if (erase (fun k => k) 0 (emptyHashMap : HashMap Nat Nat)).1 = true ∧
          (((emptyHashMap : HashMap Nat Nat).size : ℚ) - 1) /
            (emptyHashMap : HashMap Nat Nat).capacity < 1 / 4 ∧
          1 < (emptyHashMap : HashMap Nat Nat).capacity
        then (emptyHashMap : HashMap Nat Nat).capacity / 2
        else (emptyHashMap : HashMap Nat Nat).capacity) :=
  resize_step_characterization (fun k => k) emptyHashMap
    (WF_emptyHashMap (fun k => k)) 0 0

/-- C6: over every sequence of insert/erase operations started from the
default-constructed empty map, the final size equals the number of
successful inserts minus the number of successful erases (each successful
insert is of a key absent at that moment, hence of a distinct live key),
and the capacity is always a power of two, never below 1. -/
theorem size_accounting_capacity_pow2 {K V : Type} [DecidableEq K] [Inhabited V]
    (h : K → Nat) (ops : List (Op K V)) :
    (runOps h ops (emptyHashMap : HashMap K V)).1.size +
        (runOps h ops (emptyHashMap : HashMap K V)).2.2 =
      (runOps h ops (emptyHashMap : HashMap K V)).2.1 ∧
    (∃ k, (runOps h ops (emptyHashMap : HashMap K V)).1.capacity = 2 ^ k) ∧
    1 ≤ (runOps h ops (emptyHashMap : HashMap K V)).1.capacity := by
  have hacc := runOps_accounting ops (WF_emptyHashMap h)
  have hwf := applyOps_wf ops (WF_emptyHashMap h)
  rw [← runOps_fst] at hwf
  refine ⟨?_, hwf.pow2, hwf.cap_pos⟩
  have hsz : (emptyHashMap : HashMap K V).size = 0 := rfl
  rw [hsz] at hacc
  omega

end Claims3

section Claims4

open HashMap

/-- C7 (code bug): the constructor loop bound `i < _size` is re-read each
iteration while the body decrements `_size` on a duplicate key, so the loop
exits before consuming all input pairs.  Building from keys `[0, 0, 1]` and
values `[1, 2, 3]` (with any hash sending `k` to `k`): the duplicate `0` at
index 1 shrinks `_size` to 2, the test `2 < 2` fails, and the pair `(1, 3)`
is never inserted — `at 1` throws `KeyNotFound` and only one live entry
remains, yet `size()` still reports 2.  The claim (and the source's own
documentation) instead mandates that every pair is inserted in sequence
order with last-occurrence-wins, which here would give two live entries
with `at 1 = 3`. -/
theorem bulk_ctor_early_exit :
    (bulkBuild (fun k => k) [0, 0, 1] ([1, 2, 3] : List Nat)).size = 2 ∧
    (entries (bulkBuild (fun k => k) [0, 0, 1] ([1, 2, 3] : List Nat))).length = 1 ∧
    atE (fun k => k) (bulkBuild (fun k => k) [0, 0, 1] ([1, 2, 3] : List Nat)) 1 =
      Except.error HashMapError.KeyNotFound ∧
    atE (fun k => k) (bulkBuild (fun k => k) [0, 0, 1] ([1, 2, 3] : List Nat)) 0 =
      Except.ok 2 := by
  have h16 : growCapacity 3 16 = 16 := by
    rw [growCapacity, dif_neg (by omega)]
  have hinit : (bulkInit 3 : HashMap Nat Nat) =
      { size := 3, capacity := 16, arr := List.replicate 16 [],
        defaultValue := 0 } := by
    unfold bulkInit
    rw [h16]
    rfl
  have hb : bulkBuild (fun k => k) [0, 0, 1] ([1, 2, 3] : List Nat) =
      bulkLoopFuel (fun k => k) [(0, 1), (0, 2), (1, 3)] 3 0
        { size := 3, capacity := 16, arr := List.replicate 16 [],
          defaultValue := 0 } := by
    show bulkLoop (fun k => k) [(0, 1), (0, 2), (1, 3)] 0 (bulkInit 3) = _
    rw [bulkLoop_eq_fuel (fun k => k) [(0, 1), (0, 2), (1, 3)] 3 0
      (bulkInit 3) (by decide), hinit]
  refine ⟨?_, ?_, ?_, ?_⟩
  · rw [hb]
    decide
  · rw [hb]
    decide
  · rw [hb]
    rfl
  · rw [hb]
    rfl

/-- C8: on a well-formed map, `insert` succeeds exactly when the key is
absent — in which case it adds the binding, bumps the size by one and
disturbs no other key — and returns `false` exactly when the key is present,
in which case the whole map value is literally unchanged (same size,
capacity and contents; the stored value is not overwritten).  The embedding
of `insert` is a total function: it cannot throw. -/
theorem insert_contract {K V : Type} [DecidableEq K] (h : K → Nat)
    (m : HashMap K V) (hwf : WF h m) (key : K) (value : V) :
    ((insert h key value m).1 = true ↔ containsKey h m key = false) ∧
    (containsKey h m key = true → insert h key value m = (false, m)) ∧
    (containsKey h m key = false →
      atE h (insert h key value m).2 key = Except.ok value ∧
      (insert h key value m).2.size = m.size + 1 ∧
      ∀ key', key' ≠ key →
        lookupOpt h (insert h key value m).2 key' = lookupOpt h m key') := by
  have hck : containsKey h m key = (lookupOpt h m key).isSome := rfl
  refine ⟨?_, ?_, ?_⟩
  · cases hl : lookupOpt h m key with
    | some w =>
      rw [insert_present value hl, hck, hl]
      simp
    | none =>
      obtain ⟨h1, _, _, _, _⟩ := insert_absent value hwf hl
      rw [h1, hck, hl]
      simp
  · intro hpres
    rw [hck] at hpres
    cases hl : lookupOpt h m key with
    | none =>
      rw [hl] at hpres
      cases hpres
    | some w => exact insert_present value hl
  · intro habs
    rw [hck] at habs
    cases hl : lookupOpt h m key with
    | some w =>
      rw [hl] at habs
      cases habs
    | none =>
      obtain ⟨_, _, _, hsz, _⟩ := insert_absent value hwf hl
      refine ⟨?_, hsz, ?_⟩
      · unfold atE
        rw [lookupOpt_insert_self value hwf hl]
      · intro key' hne
        exact lookupOpt_insert_ne value hwf hne

theorem insert_contract_witness :
    ((insert (fun k => k) 5 9 (emptyHashMap : HashMap Nat Nat)).1 = true ↔
      containsKey (fun k => k) (emptyHashMap : HashMap Nat Nat) 5 = false) ∧
    (containsKey (fun k => k) (emptyHashMap : HashMap Nat Nat) 5 = true →
      insert (fun k => k) 5 9 (emptyHashMap : HashMap Nat Nat) =
        (false, emptyHashMap)) ∧
    (containsKey (fun k => k) (emptyHashMap : HashMap Nat Nat) 5 = false →
      atE (fun k => k) (insert (fun k => k) 5 9
        (emptyHashMap : HashMap Nat Nat)).2 5 = Except.ok 9 ∧
      (insert (fun k => k) 5 9 (emptyHashMap : HashMap Nat Nat)).2.size =
        (emptyHashMap : HashMap Nat Nat).size + 1 ∧
      ∀ key', key' ≠ 5 →
        lookupOpt (fun k => k) (insert (fun k => k) 5 9
          (emptyHashMap : HashMap Nat Nat)).2 key' =
        lookupOpt (fun k => k) (emptyHashMap : HashMap Nat Nat) key') :=
  insert_contract (fun k => k) emptyHashMap (WF_emptyHashMap (fun k => k)) 5 9

end Claims4


section Claims5

open HashMap

/-- C9: on well-formed maps, `operator==` returns `true` iff the maps have
the same count and every key of the left map is bound to an equal value in
the right map; equivalently, iff the two entry collections are permutations
of each other — a condition independent of bucket layout, insertion order
and resize history, so two maps holding the same key/value pairs compare
equal whatever their histories. -/
theorem equality_layout_independent {K V : Type} [DecidableEq K] [DecidableEq V]
    (h : K → Nat) (m1 m2 : HashMap K V) (hwf1 : WF h m1) (hwf2 : WF h m2) :
    (hashMapBeq h m1 m2 = true ↔
      (m1.size = m2.size ∧ ∀ p ∈ entries m1, lookupOpt h m2 p.1 = some p.2)) ∧
    (hashMapBeq h m1 m2 = true ↔ (entries m1).Perm (entries m2)) := by
  have hfirst : hashMapBeq h m1 m2 = true ↔
      (m1.size = m2.size ∧ ∀ p ∈ entries m1, lookupOpt h m2 p.1 = some p.2) := by
    unfold hashMapBeq
    by_cases hsz : m1.size = m2.size
    · rw [if_neg (not_not_intro hsz), List.all_eq_true]
      constructor
      · intro hall
        refine ⟨hsz, ?_⟩
        intro p hp
        have hallp := hall p hp
        rw [Bool.and_eq_true] at hallp
        obtain ⟨hc, hd⟩ := hallp
        cases hl2 : lookupOpt h m2 p.1 with
        | none =>
          have hcs : (lookupOpt h m2 p.1).isSome = true := hc
          rw [hl2] at hcs
          cases hcs
        | some u =>
          have hgd : getOrDefault h m2 p.1 = u := by
            unfold getOrDefault
            rw [hl2]
          rw [hgd] at hd
          rw [of_decide_eq_true hd]
      · intro hpair p hp
        have hl2 := hpair.2 p hp
        rw [Bool.and_eq_true]
        constructor
        · show (lookupOpt h m2 p.1).isSome = true
          rw [hl2]
          rfl
        · have hgd : getOrDefault h m2 p.1 = p.2 := by
            unfold getOrDefault
            rw [hl2]
          rw [hgd]
          exact decide_eq_true rfl
    · rw [if_pos hsz]
      simp only [Bool.false_eq_true, false_iff]
      intro hcon
      exact hsz hcon.1
  have hsecond : hashMapBeq h m1 m2 = true ↔ (entries m1).Perm (entries m2) := by
    rw [hfirst]
    constructor
    · intro hpair
      have hsub : entries m1 ⊆ entries m2 := by
        intro p hp
        have hmem := (lookupOpt_eq_some_iff hwf2 p.1 p.2).mp (hpair.2 p hp)
        simpa using hmem
      have hnd1 : (entries m1).Nodup := List.Nodup.of_map Prod.fst hwf1.nodup
      refine (hnd1.subperm hsub).perm_of_length_le ?_
      rw [← hwf1.size_eq, ← hwf2.size_eq]
      omega
    · intro hperm
      constructor
      · rw [hwf1.size_eq, hwf2.size_eq, hperm.length_eq]
      · intro p hp
        refine (lookupOpt_eq_some_iff hwf2 p.1 p.2).mpr ?_
        simpa using hperm.subset hp
  exact ⟨hfirst, hsecond⟩

theorem equality_layout_independent_witness :
    (hashMapBeq (fun k => k) (insert (fun k => k) 2 20 (insert (fun k => k) 1 10 (emptyHashMap : HashMap Nat Nat)).2).2 (insert (fun k => k) 1 10 (insert (fun k => k) 2 20 (emptyHashMap : HashMap Nat Nat)).2).2 = true ↔
      ((insert (fun k => k) 2 20 (insert (fun k => k) 1 10 (emptyHashMap : HashMap Nat Nat)).2).2.size = (insert (fun k => k) 1 10 (insert (fun k => k) 2 20 (emptyHashMap : HashMap Nat Nat)).2).2.size ∧ ∀ p ∈ entries (insert (fun k => k) 2 20 (insert (fun k => k) 1 10 (emptyHashMap : HashMap Nat Nat)).2).2,
        lookupOpt (fun k => k) (insert (fun k => k) 1 10 (insert (fun k => k) 2 20 (emptyHashMap : HashMap Nat Nat)).2).2 p.1 = some p.2)) ∧
    (hashMapBeq (fun k => k) (insert (fun k => k) 2 20 (insert (fun k => k) 1 10 (emptyHashMap : HashMap Nat Nat)).2).2 (insert (fun k => k) 1 10 (insert (fun k => k) 2 20 (emptyHashMap : HashMap Nat Nat)).2).2 = true ↔ (entries (insert (fun k => k) 2 20 (insert (fun k => k) 1 10 (emptyHashMap : HashMap Nat Nat)).2).2).Perm (entries (insert (fun k => k) 1 10 (insert (fun k => k) 2 20 (emptyHashMap : HashMap Nat Nat)).2).2)) :=
  equality_layout_independent (fun k => k) (insert (fun k => k) 2 20 (insert (fun k => k) 1 10 (emptyHashMap : HashMap Nat Nat)).2).2 (insert (fun k => k) 1 10 (insert (fun k => k) 2 20 (emptyHashMap : HashMap Nat Nat)).2).2
    (insert_wf 2 20 (insert_wf 1 10 (WF_emptyHashMap (fun k => k))))
    (insert_wf 1 10 (insert_wf 2 20 (WF_emptyHashMap (fun k => k))))

/-- C10: the const `operator[]` on an absent key neither throws nor
inserts: being a `const` method it is embedded as a pure function of the
map (so size, capacity and contents are untouched by construction), and it
returns the map's single shared `_defaultValue` member, which the
constructors default-construct — in contrast to the non-const version,
which auto-inserts a default-constructed value and grows the size by one. -/
theorem const_index_access_default {K V : Type} [DecidableEq K] [Inhabited V]
    (h : K → Nat) (m : HashMap K V) (key : K)
    (habs : containsKey h m key = false) :
    getOrDefault h m key = m.defaultValue ∧
    (emptyHashMap : HashMap K V).defaultValue = (default : V) ∧
    (bulkInit 0 : HashMap K V).defaultValue = (default : V) ∧
    (getOrInsertDefault h m key).2.size = m.size + 1 ∧
    (getOrInsertDefault h m key).1 = (default : V) := by
  have hl : lookupOpt h m key = none := by
    cases hl : lookupOpt h m key with
    | none => rfl
    | some w =>
      have hck : containsKey h m key = true := by
        show (lookupOpt h m key).isSome = true
        rw [hl]
        rfl
      rw [habs] at hck
      cases hck
  refine ⟨?_, rfl, rfl, ?_, ?_⟩
  · unfold getOrDefault
    rw [hl]
  · rw [getOrInsertDefault_eq, hl]
    show (if 4 * (m.size + 1) > 3 * m.capacity then
        ((default : V), rehashArray h (m.capacity * 2) (insertRaw h key (default : V) m))
      else ((default : V), insertRaw h key (default : V) m)).2.size = m.size + 1
    by_cases hgrow : 4 * (m.size + 1) > 3 * m.capacity
    · rw [if_pos hgrow]
      rfl
    · rw [if_neg hgrow]
      rfl
  · rw [getOrInsertDefault_eq, hl]
    show (if 4 * (m.size + 1) > 3 * m.capacity then
        ((default : V), rehashArray h (m.capacity * 2) (insertRaw h key (default : V) m))
      else ((default : V), insertRaw h key (default : V) m)).1 = (default : V)
    by_cases hgrow : 4 * (m.size + 1) > 3 * m.capacity
    · rw [if_pos hgrow]
    · rw [if_neg hgrow]

theorem const_index_access_default_witness :
    getOrDefault (fun k => k) (emptyHashMap : HashMap Nat Nat) 0 =
      (emptyHashMap : HashMap Nat Nat).defaultValue ∧
    (emptyHashMap : HashMap Nat Nat).defaultValue = (default : Nat) ∧
    (bulkInit 0 : HashMap Nat Nat).defaultValue = (default : Nat) ∧
    (getOrInsertDefault (fun k => k) (emptyHashMap : HashMap Nat Nat) 0).2.size =
      (emptyHashMap : HashMap Nat Nat).size + 1 ∧
    (getOrInsertDefault (fun k => k) (emptyHashMap : HashMap Nat Nat) 0).1 =
      (default : Nat) :=
  const_index_access_default (fun k => k) emptyHashMap 0 (by decide)

end Claims5
